import Mathlib

/-!
Verification of the `gfx::Transform` component of this repository
(`ui/gfx/transform.h` and `ui/gfx/transform_unittest.cc`).

The component wraps a 4x4 real matrix (column-vector convention: a point
transforms as `M * p`, translation sits in the last column, matching the
expectations of `transform_unittest.cc`).  The implementation files
(`transform.cc`, `transform_util.cc`, `SkMatrix44`) are not part of this
snapshot, so the decomposition / composition / blending / inversion
algorithms are modelled from the specification (sections 4.1-4.3), with the
header comments and the unit tests pinning the behaviour where they speak.
All arithmetic is exact real arithmetic.
-/

namespace GfxTransform

open Real

/-- A 3-component vector of reals. -/
@[ext]
structure Vec3 where
  x : ℝ
  y : ℝ
  z : ℝ

/-- A 4-component vector of reals (used for quaternions, stored (x, y, z, w),
and for the perspective component of a decomposed transform). -/
@[ext]
structure Vec4 where
  x : ℝ
  y : ℝ
  z : ℝ
  w : ℝ

/-- A 3x3 real matrix, entry `mRC` is row R, column C. -/
@[ext]
structure Mat3 where
  m00 : ℝ
  m01 : ℝ
  m02 : ℝ
  m10 : ℝ
  m11 : ℝ
  m12 : ℝ
  m20 : ℝ
  m21 : ℝ
  m22 : ℝ

/-- A 4x4 real matrix, entry `mRC` is row R, column C.  This is the matrix
wrapped by `gfx::Transform` (`SkMatrix44`), in column-vector convention:
translation occupies entries `m03, m13, m23` and the perspective row is
`m30, m31, m32, m33`. -/
@[ext]
structure Mat4 where
  m00 : ℝ
  m01 : ℝ
  m02 : ℝ
  m03 : ℝ
  m10 : ℝ
  m11 : ℝ
  m12 : ℝ
  m13 : ℝ
  m20 : ℝ
  m21 : ℝ
  m22 : ℝ
  m23 : ℝ
  m30 : ℝ
  m31 : ℝ
  m32 : ℝ
  m33 : ℝ

namespace Vec3

/-- Dot product of 3-vectors. -/
def dot (u v : Vec3) : ℝ := u.x * v.x + u.y * v.y + u.z * v.z

/-- Scalar multiple of a 3-vector. -/
def smul (k : ℝ) (v : Vec3) : Vec3 := ⟨k * v.x, k * v.y, k * v.z⟩

/-- Difference of 3-vectors. -/
def sub (u v : Vec3) : Vec3 := ⟨u.x - v.x, u.y - v.y, u.z - v.z⟩

/-- Negation of a 3-vector. -/
def neg (v : Vec3) : Vec3 := ⟨-v.x, -v.y, -v.z⟩

/-- Sum of 3-vectors. -/
def add (u v : Vec3) : Vec3 := ⟨u.x + v.x, u.y + v.y, u.z + v.z⟩

/-- Euclidean norm of a 3-vector. -/
noncomputable def norm (v : Vec3) : ℝ := Real.sqrt (dot v v)

end Vec3

namespace Vec4

/-- Dot product of 4-vectors (used for the quaternion dot product that
detects antipodal rotations in `Blend`). -/
def dot (u v : Vec4) : ℝ := u.x * v.x + u.y * v.y + u.z * v.z + u.w * v.w

/-- Scalar multiple of a 4-vector. -/
def smul (k : ℝ) (v : Vec4) : Vec4 := ⟨k * v.x, k * v.y, k * v.z, k * v.w⟩

/-- Sum of 4-vectors. -/
def add (u v : Vec4) : Vec4 := ⟨u.x + v.x, u.y + v.y, u.z + v.z, u.w + v.w⟩

/-- Negation of a 4-vector. -/
def neg (v : Vec4) : Vec4 := ⟨-v.x, -v.y, -v.z, -v.w⟩

end Vec4

namespace Mat3

/-- The 3x3 identity matrix. -/
def identity : Mat3 := ⟨1, 0, 0, 0, 1, 0, 0, 0, 1⟩

/-- Matrix product of 3x3 matrices. -/
def mul (a b : Mat3) : Mat3 :=
  ⟨a.m00 * b.m00 + a.m01 * b.m10 + a.m02 * b.m20,
   a.m00 * b.m01 + a.m01 * b.m11 + a.m02 * b.m21,
   a.m00 * b.m02 + a.m01 * b.m12 + a.m02 * b.m22,
   a.m10 * b.m00 + a.m11 * b.m10 + a.m12 * b.m20,
   a.m10 * b.m01 + a.m11 * b.m11 + a.m12 * b.m21,
   a.m10 * b.m02 + a.m11 * b.m12 + a.m12 * b.m22,
   a.m20 * b.m00 + a.m21 * b.m10 + a.m22 * b.m20,
   a.m20 * b.m01 + a.m21 * b.m11 + a.m22 * b.m21,
   a.m20 * b.m02 + a.m21 * b.m12 + a.m22 * b.m22⟩

/-- Transpose of a 3x3 matrix. -/
def transpose (a : Mat3) : Mat3 :=
  ⟨a.m00, a.m10, a.m20, a.m01, a.m11, a.m21, a.m02, a.m12, a.m22⟩

/-- Determinant of a 3x3 matrix. -/
def det (a : Mat3) : ℝ :=
  a.m00 * (a.m11 * a.m22 - a.m12 * a.m21) -
  a.m01 * (a.m10 * a.m22 - a.m12 * a.m20) +
  a.m02 * (a.m10 * a.m21 - a.m11 * a.m20)

/-- Adjugate (transposed cofactor matrix) of a 3x3 matrix;
`a * adjugate a = det a * I` identically. -/
def adjugate (a : Mat3) : Mat3 :=
  ⟨a.m11 * a.m22 - a.m12 * a.m21,
   -(a.m01 * a.m22 - a.m02 * a.m21),
   a.m01 * a.m12 - a.m02 * a.m11,
   -(a.m10 * a.m22 - a.m12 * a.m20),
   a.m00 * a.m22 - a.m02 * a.m20,
   -(a.m00 * a.m12 - a.m02 * a.m10),
   a.m10 * a.m21 - a.m11 * a.m20,
   -(a.m00 * a.m21 - a.m01 * a.m20),
   a.m00 * a.m11 - a.m01 * a.m10⟩

/-- Entry-wise scalar multiple of a 3x3 matrix. -/
def smul (k : ℝ) (a : Mat3) : Mat3 :=
  ⟨k * a.m00, k * a.m01, k * a.m02, k * a.m10, k * a.m11, k * a.m12,
   k * a.m20, k * a.m21, k * a.m22⟩

/-- Inverse of a 3x3 matrix (meaningful when `det a` is nonzero). -/
noncomputable def inv (a : Mat3) : Mat3 := smul (1 / det a) (adjugate a)

/-- Matrix-vector product. -/
def mulVec (a : Mat3) (v : Vec3) : Vec3 :=
  ⟨a.m00 * v.x + a.m01 * v.y + a.m02 * v.z,
   a.m10 * v.x + a.m11 * v.y + a.m12 * v.z,
   a.m20 * v.x + a.m21 * v.y + a.m22 * v.z⟩

/-- First column. -/
def col0 (a : Mat3) : Vec3 := ⟨a.m00, a.m10, a.m20⟩

/-- Second column. -/
def col1 (a : Mat3) : Vec3 := ⟨a.m01, a.m11, a.m21⟩

/-- Third column. -/
def col2 (a : Mat3) : Vec3 := ⟨a.m02, a.m12, a.m22⟩

/-- Build a matrix from its three columns. -/
def ofCols (u v w : Vec3) : Mat3 :=
  ⟨u.x, v.x, w.x, u.y, v.y, w.y, u.z, v.z, w.z⟩

/-- Entry-wise negation. -/
def neg (a : Mat3) : Mat3 :=
  ⟨-a.m00, -a.m01, -a.m02, -a.m10, -a.m11, -a.m12, -a.m20, -a.m21, -a.m22⟩

/-- Trace of a 3x3 matrix. -/
def trace (a : Mat3) : ℝ := a.m00 + a.m11 + a.m22

end Mat3

instance : Mul Mat3 := ⟨Mat3.mul⟩

namespace Mat4

/-- The 4x4 identity matrix (`Transform()` default / `MakeIdentity`). -/
def identity : Mat4 := ⟨1, 0, 0, 0, 0, 1, 0, 0, 0, 0, 1, 0, 0, 0, 0, 1⟩

/-- Matrix product of 4x4 matrices (`Transform::operator*`,
`PreconcatTransform`). -/
def mul (a b : Mat4) : Mat4 :=
  ⟨a.m00 * b.m00 + a.m01 * b.m10 + a.m02 * b.m20 + a.m03 * b.m30,
   a.m00 * b.m01 + a.m01 * b.m11 + a.m02 * b.m21 + a.m03 * b.m31,
   a.m00 * b.m02 + a.m01 * b.m12 + a.m02 * b.m22 + a.m03 * b.m32,
   a.m00 * b.m03 + a.m01 * b.m13 + a.m02 * b.m23 + a.m03 * b.m33,
   a.m10 * b.m00 + a.m11 * b.m10 + a.m12 * b.m20 + a.m13 * b.m30,
   a.m10 * b.m01 + a.m11 * b.m11 + a.m12 * b.m21 + a.m13 * b.m31,
   a.m10 * b.m02 + a.m11 * b.m12 + a.m12 * b.m22 + a.m13 * b.m32,
   a.m10 * b.m03 + a.m11 * b.m13 + a.m12 * b.m23 + a.m13 * b.m33,
   a.m20 * b.m00 + a.m21 * b.m10 + a.m22 * b.m20 + a.m23 * b.m30,
   a.m20 * b.m01 + a.m21 * b.m11 + a.m22 * b.m21 + a.m23 * b.m31,
   a.m20 * b.m02 + a.m21 * b.m12 + a.m22 * b.m22 + a.m23 * b.m32,
   a.m20 * b.m03 + a.m21 * b.m13 + a.m22 * b.m23 + a.m23 * b.m33,
   a.m30 * b.m00 + a.m31 * b.m10 + a.m32 * b.m20 + a.m33 * b.m30,
   a.m30 * b.m01 + a.m31 * b.m11 + a.m32 * b.m21 + a.m33 * b.m31,
   a.m30 * b.m02 + a.m31 * b.m12 + a.m32 * b.m22 + a.m33 * b.m32,
   a.m30 * b.m03 + a.m31 * b.m13 + a.m32 * b.m23 + a.m33 * b.m33⟩

/-- The upper-left 3x3 block. -/
def upper3 (m : Mat4) : Mat3 :=
  ⟨m.m00, m.m01, m.m02, m.m10, m.m11, m.m12, m.m20, m.m21, m.m22⟩

/-- Embed a 3x3 matrix into the upper-left corner of a 4x4 identity. -/
def embed3 (a : Mat3) : Mat4 :=
  ⟨a.m00, a.m01, a.m02, 0, a.m10, a.m11, a.m12, 0,
   a.m20, a.m21, a.m22, 0, 0, 0, 0, 1⟩

/-- Determinant of a 4x4 matrix, by cofactor expansion along the first row. -/
def det (m : Mat4) : ℝ :=
  m.m00 * Mat3.det ⟨m.m11, m.m12, m.m13, m.m21, m.m22, m.m23, m.m31, m.m32, m.m33⟩ -
  m.m01 * Mat3.det ⟨m.m10, m.m12, m.m13, m.m20, m.m22, m.m23, m.m30, m.m32, m.m33⟩ +
  m.m02 * Mat3.det ⟨m.m10, m.m11, m.m13, m.m20, m.m21, m.m23, m.m30, m.m31, m.m33⟩ -
  m.m03 * Mat3.det ⟨m.m10, m.m11, m.m12, m.m20, m.m21, m.m22, m.m30, m.m31, m.m32⟩

end Mat4

instance : Mul Mat4 := ⟨Mat4.mul⟩

namespace Mat4

/-- Adjugate of a 4x4 matrix: entry (i, j) is the (j, i) cofactor, so that
`m * adjugate m = det m * I` identically. -/
def adjugate (m : Mat4) : Mat4 :=
  ⟨Mat3.det ⟨m.m11, m.m12, m.m13, m.m21, m.m22, m.m23, m.m31, m.m32, m.m33⟩,
   -Mat3.det ⟨m.m01, m.m02, m.m03, m.m21, m.m22, m.m23, m.m31, m.m32, m.m33⟩,
   Mat3.det ⟨m.m01, m.m02, m.m03, m.m11, m.m12, m.m13, m.m31, m.m32, m.m33⟩,
   -Mat3.det ⟨m.m01, m.m02, m.m03, m.m11, m.m12, m.m13, m.m21, m.m22, m.m23⟩,
   -Mat3.det ⟨m.m10, m.m12, m.m13, m.m20, m.m22, m.m23, m.m30, m.m32, m.m33⟩,
   Mat3.det ⟨m.m00, m.m02, m.m03, m.m20, m.m22, m.m23, m.m30, m.m32, m.m33⟩,
   -Mat3.det ⟨m.m00, m.m02, m.m03, m.m10, m.m12, m.m13, m.m30, m.m32, m.m33⟩,
   Mat3.det ⟨m.m00, m.m02, m.m03, m.m10, m.m12, m.m13, m.m20, m.m22, m.m23⟩,
   Mat3.det ⟨m.m10, m.m11, m.m13, m.m20, m.m21, m.m23, m.m30, m.m31, m.m33⟩,
   -Mat3.det ⟨m.m00, m.m01, m.m03, m.m20, m.m21, m.m23, m.m30, m.m31, m.m33⟩,
   Mat3.det ⟨m.m00, m.m01, m.m03, m.m10, m.m11, m.m13, m.m30, m.m31, m.m33⟩,
   -Mat3.det ⟨m.m00, m.m01, m.m03, m.m10, m.m11, m.m13, m.m20, m.m21, m.m23⟩,
   -Mat3.det ⟨m.m10, m.m11, m.m12, m.m20, m.m21, m.m22, m.m30, m.m31, m.m32⟩,
   Mat3.det ⟨m.m00, m.m01, m.m02, m.m20, m.m21, m.m22, m.m30, m.m31, m.m32⟩,
   -Mat3.det ⟨m.m00, m.m01, m.m02, m.m10, m.m11, m.m12, m.m30, m.m31, m.m32⟩,
   Mat3.det ⟨m.m00, m.m01, m.m02, m.m10, m.m11, m.m12, m.m20, m.m21, m.m22⟩⟩

/-- Entry-wise scalar multiple of a 4x4 matrix. -/
def smul (k : ℝ) (m : Mat4) : Mat4 :=
  ⟨k * m.m00, k * m.m01, k * m.m02, k * m.m03,
   k * m.m10, k * m.m11, k * m.m12, k * m.m13,
   k * m.m20, k * m.m21, k * m.m22, k * m.m23,
   k * m.m30, k * m.m31, k * m.m32, k * m.m33⟩

/-- Inverse of a 4x4 matrix (meaningful when `det m` is nonzero). -/
noncomputable def inv (m : Mat4) : Mat4 := smul (1 / det m) (adjugate m)

end Mat4

/-! ### Transform constructors

These model the composition operations of `gfx::Transform` (transform.h
section 4.1 of the spec): each builds the primitive matrix that the
corresponding method post-multiplies onto the current matrix.  Angles are
taken in degrees, as in the source, and converted to radians. -/

/-- Degrees-to-radians conversion used by the rotation and skew ops. -/
noncomputable def deg2rad (degrees : ℝ) : ℝ := degrees * Real.pi / 180

/-- The translation matrix used by `Translate(x, y)` / `Translate3d`. -/
def translationM (t : Vec3) : Mat4 :=
  ⟨1, 0, 0, t.x, 0, 1, 0, t.y, 0, 0, 1, t.z, 0, 0, 0, 1⟩

/-- The scale matrix used by `Scale(x, y)` / `Scale3d`. -/
def scaleM (s : Vec3) : Mat4 :=
  ⟨s.x, 0, 0, 0, 0, s.y, 0, 0, 0, 0, s.z, 0, 0, 0, 0, 1⟩

/-- The rotation matrix used by `Rotate(degrees)` / `RotateAboutZAxis`. -/
noncomputable def rotateZM (degrees : ℝ) : Mat4 :=
  let r := deg2rad degrees
  ⟨Real.cos r, -Real.sin r, 0, 0,
   Real.sin r, Real.cos r, 0, 0,
   0, 0, 1, 0, 0, 0, 0, 1⟩

/-- The angle-axis rotation matrix used by `RotateAbout(axis, degrees)` for a
unit axis `(a, b, c)` (the source normalizes the axis first; callers below
always pass a unit vector). -/
noncomputable def rotateAboutUnitM (a b c degrees : ℝ) : Mat4 :=
  let r := deg2rad degrees
  let s := Real.sin r
  let k := Real.cos r
  ⟨a * a * (1 - k) + k, a * b * (1 - k) - c * s, a * c * (1 - k) + b * s, 0,
   a * b * (1 - k) + c * s, b * b * (1 - k) + k, b * c * (1 - k) - a * s, 0,
   a * c * (1 - k) - b * s, b * c * (1 - k) + a * s, c * c * (1 - k) + k, 0,
   0, 0, 0, 1⟩

/-- The shear matrix used by `SkewX(angle_x)`. -/
noncomputable def skewXM (degrees : ℝ) : Mat4 :=
  ⟨1, Real.tan (deg2rad degrees), 0, 0, 0, 1, 0, 0, 0, 0, 1, 0, 0, 0, 0, 1⟩

/-- The shear matrix used by `SkewY(angle_y)`. -/
noncomputable def skewYM (degrees : ℝ) : Mat4 :=
  ⟨1, 0, 0, 0, Real.tan (deg2rad degrees), 1, 0, 0, 0, 0, 1, 0, 0, 0, 0, 1⟩

/-- Modelled from the spec: `Transform::GetInverse(out)` (transform.cc is not
in the snapshot).  Per spec section 4.1 and the header comment
(transform.h:115-116), it computes the inverse of the receiver and writes it
to `out`, returning success; when the receiver is singular it fails and
leaves `out` as the identity, regardless of the value `out` held before the
call.  `m` is the receiver and `out` the initial value of the output
transform; the result pairs the returned boolean with the final value of
`out`. -/
noncomputable def getInverse (m out : Mat4) : Bool × Mat4 :=
  if Mat4.det m = 0 then (false, Mat4.identity) else (true, Mat4.inv m)

/-- `Transform::IsInvertible()`: the determinant is nonzero. -/
def isInvertible (m : Mat4) : Prop := Mat4.det m ≠ 0

/-! ### Decomposition (spec section 4.2)

Modelled from the spec: `DecomposeTransform` (ui/gfx/transform_util, not in
the snapshot), following the QR-style algorithm of spec section 4.2 and the
CSS 3D transforms routine referenced by transform.h:150-151.  The matrix is
rejected when the bottom-right homogeneous entry is zero; it is normalized
by that entry; translation is read off the last column; scale and skew come
from Gram-Schmidt orthogonalization of the columns of the upper-left 3x3
block; the remaining orthogonal factor becomes a quaternion.  The
perspective components are obtained by solving against the upper 3x3 block
(so that `Compose` is the exact algebraic inverse, as spec section 4.2
requires); this needs that block to be invertible, so a singular upper 3x3
block is also rejected, which is what makes `Blend` fail on the singular
matrix of XFormTest.CannotBlendSingularMatrix. -/

/-- The decomposition record (spec section 3): translation, scale, skew
(xy, xz, yz), rotation quaternion (x, y, z, w) and perspective. -/
structure DecomposedTransform where
  translate : Vec3
  scale : Vec3
  skew : Vec3
  quaternion : Vec4
  perspective : Vec4

/-- The default-constructed `DecomposedTransform`: identity components. -/
def DecomposedTransform.identity : DecomposedTransform :=
  ⟨⟨0, 0, 0⟩, ⟨1, 1, 1⟩, ⟨0, 0, 0⟩, ⟨0, 0, 0, 1⟩, ⟨0, 0, 0, 1⟩⟩

/-- Normalization step: divide every entry by the bottom-right entry. -/
noncomputable def normalizeM (m : Mat4) : Mat4 := Mat4.smul (1 / m.m33) m

/-- Gram-Schmidt, step 1: the x scale factor is the norm of column 0. -/
noncomputable def gsSx (a : Mat3) : ℝ := Vec3.norm (Mat3.col0 a)

/-- Gram-Schmidt, step 1: normalized column 0. -/
noncomputable def gsR0 (a : Mat3) : Vec3 := Vec3.smul (1 / gsSx a) (Mat3.col0 a)

/-- Gram-Schmidt, step 2: projection of column 1 onto the first axis
(the XY skew before rescaling). -/
noncomputable def gsKxy (a : Mat3) : ℝ := Vec3.dot (gsR0 a) (Mat3.col1 a)

/-- Gram-Schmidt, step 2: column 1 with its projection onto the first axis
removed. -/
noncomputable def gsC1 (a : Mat3) : Vec3 :=
  Vec3.sub (Mat3.col1 a) (Vec3.smul (gsKxy a) (gsR0 a))

/-- Gram-Schmidt, step 2: the y scale factor. -/
noncomputable def gsSy (a : Mat3) : ℝ := Vec3.norm (gsC1 a)

/-- Gram-Schmidt, step 2: normalized second axis. -/
noncomputable def gsR1 (a : Mat3) : Vec3 := Vec3.smul (1 / gsSy a) (gsC1 a)

/-- Gram-Schmidt, step 3: projection of column 2 onto the first axis
(the XZ skew before rescaling). -/
noncomputable def gsKxz (a : Mat3) : ℝ := Vec3.dot (gsR0 a) (Mat3.col2 a)

/-- Gram-Schmidt, step 3: column 2 with its projection onto the first axis
removed. -/
noncomputable def gsC2 (a : Mat3) : Vec3 :=
  Vec3.sub (Mat3.col2 a) (Vec3.smul (gsKxz a) (gsR0 a))

/-- Gram-Schmidt, step 3: projection onto the second axis (the YZ skew
before rescaling). -/
noncomputable def gsKyz (a : Mat3) : ℝ := Vec3.dot (gsR1 a) (gsC2 a)

/-- Gram-Schmidt, step 3: column 2 orthogonalized against both axes. -/
noncomputable def gsC2b (a : Mat3) : Vec3 :=
  Vec3.sub (gsC2 a) (Vec3.smul (gsKyz a) (gsR1 a))

/-- Gram-Schmidt, step 3: the z scale factor. -/
noncomputable def gsSz (a : Mat3) : ℝ := Vec3.norm (gsC2b a)

/-- Gram-Schmidt, step 3: normalized third axis. -/
noncomputable def gsR2 (a : Mat3) : Vec3 := Vec3.smul (1 / gsSz a) (gsC2b a)

/-- The orthogonal factor produced by Gram-Schmidt (before the sign fix). -/
noncomputable def gsRot (a : Mat3) : Mat3 := Mat3.ofCols (gsR0 a) (gsR1 a) (gsR2 a)

/-- The scale factors produced by Gram-Schmidt (before the sign fix). -/
noncomputable def gsScale (a : Mat3) : Vec3 := ⟨gsSx a, gsSy a, gsSz a⟩

/-- The skew factors (XY, XZ, YZ), each rescaled by the later scale factor
as in the CSS routine. -/
noncomputable def gsSkew (a : Mat3) : Vec3 :=
  ⟨gsKxy a / gsSy a, gsKxz a / gsSz a, gsKyz a / gsSz a⟩

/-- Spec section 4.2 step 5: if the orthogonal factor has negative
determinant (improper rotation), negate it so the rotation is proper. -/
noncomputable def rotFactor (a : Mat3) : Mat3 :=
  if Mat3.det (gsRot a) < 0 then Mat3.neg (gsRot a) else gsRot a

/-- Spec section 4.2 step 5: the scale factors, negated together with the
orthogonal factor when the determinant was negative. -/
noncomputable def scaleFactor (a : Mat3) : Vec3 :=
  if Mat3.det (gsRot a) < 0 then Vec3.neg (gsScale a) else gsScale a

/-- Conversion of the (proper) rotation factor to a unit quaternion
(spec section 4.2 step 5), via the standard trace-based formula; it is exact
for rotations whose angle is not 180 degrees (`1 + trace > 0`).  At exactly
180 degrees it degenerates to the zero quaternion, for which any blend is
rejected downstream (the antipodal case of spec section 4.3 step 5). -/
noncomputable def quatOfRot (r : Mat3) : Vec4 :=
  let u := Real.sqrt (1 + Mat3.trace r)
  ⟨(r.m21 - r.m12) / (2 * u), (r.m02 - r.m20) / (2 * u),
   (r.m10 - r.m01) / (2 * u), u / 2⟩

/-- The perspective component: the unique vector whose perspective matrix
recombines with the other factors to reproduce the normalized matrix
(obtained, as in the CSS routine, by solving against the perspective-free
part; components 0-2 are the solution of `pᵀ A = bottom row`, component 3
makes the bottom-right entry 1). -/
noncomputable def perspOf (n : Mat4) : Vec4 :=
  let a := Mat4.upper3 n
  let b : Vec3 := ⟨n.m30, n.m31, n.m32⟩
  let t : Vec3 := ⟨n.m03, n.m13, n.m23⟩
  let p := Mat3.mulVec (Mat3.transpose (Mat3.inv a)) b
  ⟨p.x, p.y, p.z, 1 - Vec3.dot b (Mat3.mulVec (Mat3.inv a) t)⟩

/-- Modelled from the spec: `DecomposeTransform` (spec section 4.2; the
implementation file is not in the snapshot).  Returns `none` exactly when
the bottom-right homogeneous entry is zero or the upper-left 3x3 block of
the normalized matrix is singular. -/
noncomputable def decomposeTransform (m : Mat4) : Option DecomposedTransform :=
  if m.m33 = 0 then none
  else
    let n := normalizeM m
    let a := Mat4.upper3 n
    if Mat3.det a = 0 then none
    else
      some ⟨⟨n.m03, n.m13, n.m23⟩, scaleFactor a, gsSkew a,
            quatOfRot (rotFactor a), perspOf n⟩

/-! ### Composition (spec section 4.2) -/

/-- The perspective matrix built from the perspective components: an
identity whose bottom row is the perspective vector. -/
def perspM (p : Vec4) : Mat4 :=
  ⟨1, 0, 0, 0, 0, 1, 0, 0, 0, 0, 1, 0, p.x, p.y, p.z, p.w⟩

/-- The rotation matrix of a quaternion (x, y, z, w), column-vector
convention. -/
def rotOfQuat (q : Vec4) : Mat3 :=
  ⟨1 - 2 * (q.y * q.y + q.z * q.z), 2 * (q.x * q.y - q.z * q.w),
   2 * (q.x * q.z + q.y * q.w),
   2 * (q.x * q.y + q.z * q.w), 1 - 2 * (q.x * q.x + q.z * q.z),
   2 * (q.y * q.z - q.x * q.w),
   2 * (q.x * q.z - q.y * q.w), 2 * (q.y * q.z + q.x * q.w),
   1 - 2 * (q.x * q.x + q.y * q.y)⟩

/-- The (unit upper-triangular) skew matrix built from the skew components
(XY, XZ, YZ). -/
def skewM (k : Vec3) : Mat3 := ⟨1, k.x, k.y, 0, 1, k.z, 0, 0, 1⟩

/-- The 3x3 diagonal scale matrix of the scale components. -/
def scaleD (s : Vec3) : Mat3 := ⟨s.x, 0, 0, 0, s.y, 0, 0, 0, s.z⟩

/-- Modelled from the spec: `ComposeTransform` (spec section 4.2): build the
factor matrices and multiply them in the fixed order
`perspective * translation * rotation * skew * scale`. -/
noncomputable def composeTransform (d : DecomposedTransform) : Mat4 :=
  perspM d.perspective * translationM d.translate *
    Mat4.embed3 (rotOfQuat d.quaternion) * Mat4.embed3 (skewM d.skew) *
    scaleM d.scale

/-! ### Blending (spec section 4.3) -/

/-- Component-wise linear interpolation `from * (1 - t) + to * t`
(spec section 4.3 step 3). -/
def lerp (a b t : ℝ) : ℝ := a * (1 - t) + b * t

/-- Linear interpolation of 3-vectors. -/
def lerp3 (u v : Vec3) (t : ℝ) : Vec3 :=
  ⟨lerp u.x v.x t, lerp u.y v.y t, lerp u.z v.z t⟩

/-- Linear interpolation of 4-vectors. -/
def lerp4 (u v : Vec4) (t : ℝ) : Vec4 :=
  ⟨lerp u.x v.x t, lerp u.y v.y t, lerp u.z v.z t, lerp u.w v.w t⟩

/-- Spherical linear interpolation along the shortest arc between unit
quaternions (spec section 4.3 step 4): when the dot product is negative the
target quaternion is negated (same rotation, shorter arc); coincident
quaternions interpolate trivially. -/
noncomputable def slerp (q1 q2 : Vec4) (t : ℝ) : Vec4 :=
  let d := Vec4.dot q1 q2
  let q2x := if d < 0 then Vec4.neg q2 else q2
  if 1 ≤ |d| then q2x
  else
    let angle := Real.arccos |d|
    Vec4.add (Vec4.smul (Real.sin ((1 - t) * angle) / Real.sin angle) q1)
      (Vec4.smul (Real.sin (t * angle) / Real.sin angle) q2x)

/-- Modelled from the spec: `BlendDecomposedTransforms` (spec section 4.3
steps 3-5): fail when the two rotations are exactly 180 degrees apart
(antipodal quaternions, zero dot product), otherwise interpolate translate,
scale, skew and perspective linearly and the quaternion spherically. -/
noncomputable def blendDecomposed (f g : DecomposedTransform) (t : ℝ) :
    Option DecomposedTransform :=
  if Vec4.dot f.quaternion g.quaternion = 0 then none
  else
    some ⟨lerp3 f.translate g.translate t, lerp3 f.scale g.scale t,
          lerp3 f.skew g.skew t, slerp f.quaternion g.quaternion t,
          lerp4 f.perspective g.perspective t⟩

/-- Modelled from the spec: `to.Blend(from, progress)` (spec section 4.3;
transform.cc is not in the snapshot).  The first component of the result is
the returned boolean, the second the final value of the receiver `to`: the
result is `from` exactly at progress 0 with no decomposition; otherwise both
endpoints are decomposed (failure leaves `to` unmodified), the
decompositions are interpolated (failure for antipodal rotations, again
leaving `to` unmodified) and the interpolation is recomposed. -/
noncomputable def blend (f g : Mat4) (t : ℝ) : Bool × Mat4 :=
  if t = 0 then (true, f)
  else
    match decomposeTransform f, decomposeTransform g with
    | some fd, some gd =>
      match blendDecomposed fd gd t with
      | some bd => (true, composeTransform bd)
      | none => (false, g)
    | _, _ => (false, g)

/-! ### Rectangle mapping (spec section 4.1) -/

/-- An axis-aligned rectangle (`gfx::RectF`): origin and size. -/
@[ext]
structure RectF where
  x : ℝ
  y : ℝ
  width : ℝ
  height : ℝ

/-- Apply a transform to the 2D point `(px, py)` (embedded at z = 0) and
project back through the homogeneous coordinate. -/
noncomputable def mapPoint (m : Mat4) (px py : ℝ) : ℝ × ℝ :=
  let hw := m.m30 * px + m.m31 * py + m.m33
  ((m.m00 * px + m.m01 * py + m.m03) / hw,
   (m.m10 * px + m.m11 * py + m.m13) / hw)

/-- Whether four mapped corner points (images of the corners
top-left, top-right, bottom-left, bottom-right) still form an axis-aligned
rectangle, possibly flipped or rotated by a quarter turn. -/
def cornersAxisAligned (p1 p2 p3 p4 : ℝ × ℝ) : Prop :=
  (p1.1 = p3.1 ∧ p2.1 = p4.1 ∧ p1.2 = p2.2 ∧ p3.2 = p4.2) ∨
  (p1.1 = p2.1 ∧ p3.1 = p4.1 ∧ p1.2 = p3.2 ∧ p2.2 = p4.2)

open scoped Classical in
/-- Modelled from the spec: the rectangle-mapping behaviour documented for
`TransformRect` / `TransformRectReverse` (transform.h:137-146; the
implementation file is not in the snapshot): map the rectangle's four
corners, replace the rectangle by the axis-aligned bounding box of the
mapped corners, and report whether the mapped shape was itself axis aligned
(`TransformRectReverse` applies this to the inverse matrix, which callers
must ensure exists). -/
noncomputable def mapRect (m : Mat4) (r : RectF) : Bool × RectF :=
  let p1 := mapPoint m r.x r.y
  let p2 := mapPoint m (r.x + r.width) r.y
  let p3 := mapPoint m r.x (r.y + r.height)
  let p4 := mapPoint m (r.x + r.width) (r.y + r.height)
  let xmin := min (min p1.1 p2.1) (min p3.1 p4.1)
  let xmax := max (max p1.1 p2.1) (max p3.1 p4.1)
  let ymin := min (min p1.2 p2.2) (min p3.2 p4.2)
  let ymax := max (max p1.2 p2.2) (max p3.2 p4.2)
  (if cornersAxisAligned p1 p2 p3 p4 then true else false,
   ⟨xmin, ymin, xmax - xmin, ymax - ymin⟩)

/-- Entry-wise closeness of two matrices, the `MatricesAreNearlyEqual`
criterion of transform_unittest.cc with tolerance `e`. -/
def nearlyEqual (a b : Mat4) (e : ℝ) : Prop :=
  |a.m00 - b.m00| ≤ e ∧ |a.m01 - b.m01| ≤ e ∧ |a.m02 - b.m02| ≤ e ∧
  |a.m03 - b.m03| ≤ e ∧ |a.m10 - b.m10| ≤ e ∧ |a.m11 - b.m11| ≤ e ∧
  |a.m12 - b.m12| ≤ e ∧ |a.m13 - b.m13| ≤ e ∧ |a.m20 - b.m20| ≤ e ∧
  |a.m21 - b.m21| ≤ e ∧ |a.m22 - b.m22| ≤ e ∧ |a.m23 - b.m23| ≤ e ∧
  |a.m30 - b.m30| ≤ e ∧ |a.m31 - b.m31| ≤ e ∧ |a.m32 - b.m32| ≤ e ∧
  |a.m33 - b.m33| ≤ e

/-! ### Basic algebraic lemmas -/

/-- The adjugate identity for 3x3 matrices. -/
theorem Mat3.mul_adjugate (a : Mat3) :
    a * Mat3.adjugate a = Mat3.smul (Mat3.det a) Mat3.identity := by
  show Mat3.mul a (Mat3.adjugate a) = _
  simp only [Mat3.mul, Mat3.adjugate, Mat3.det, Mat3.smul, Mat3.identity]
  ext <;> ring

/-- A 3x3 matrix with nonzero determinant times its inverse is the
identity. -/
theorem Mat3.mul_inv (a : Mat3) (h : Mat3.det a ≠ 0) :
    a * Mat3.inv a = Mat3.identity := by
  show Mat3.mul a (Mat3.inv a) = _
  simp only [Mat3.det] at h
  simp only [Mat3.mul, Mat3.inv, Mat3.smul, Mat3.adjugate, Mat3.identity,
    Mat3.det]
  ext <;> field_simp <;> ring

/-- The inverse times the matrix is also the identity. -/
theorem Mat3.inv_mul (a : Mat3) (h : Mat3.det a ≠ 0) :
    Mat3.inv a * a = Mat3.identity := by
  show Mat3.mul (Mat3.inv a) a = _
  simp only [Mat3.det] at h
  simp only [Mat3.mul, Mat3.inv, Mat3.smul, Mat3.adjugate, Mat3.identity,
    Mat3.det]
  ext <;> field_simp <;> ring

/-- Bilinearity: dot product with a scalar multiple on the left. -/
theorem Vec3.dot_smul_left (k : ℝ) (u v : Vec3) :
    Vec3.dot (Vec3.smul k u) v = k * Vec3.dot u v := by
  simp only [Vec3.dot, Vec3.smul]; ring

/-- Bilinearity: dot product with a difference on the left. -/
theorem Vec3.dot_sub_left (u v w : Vec3) :
    Vec3.dot (Vec3.sub u v) w = Vec3.dot u w - Vec3.dot v w := by
  simp only [Vec3.dot, Vec3.sub]; ring

/-- Symmetry of the dot product. -/
theorem Vec3.dot_comm (u v : Vec3) : Vec3.dot u v = Vec3.dot v u := by
  simp only [Vec3.dot]; ring

/-- Scaling by zero gives the zero vector. -/
theorem Vec3.smul_zero_left (v : Vec3) : Vec3.smul 0 v = ⟨0, 0, 0⟩ := by
  simp [Vec3.smul]

/-- Subtracting the zero vector is the identity. -/
theorem Vec3.sub_zero_right (v : Vec3) : Vec3.sub v ⟨0, 0, 0⟩ = v := by
  simp [Vec3.sub]

/-- Normalizing a matrix whose bottom-right entry is already 1 does
nothing. -/
theorem normalizeM_of_one (m : Mat4) (h : m.m33 = 1) : normalizeM m = m := by
  simp only [normalizeM, h, Mat4.smul]
  ext <;> norm_num
  exact h.symm

/-- Gram-Schmidt on a matrix whose columns are already pairwise orthogonal
with positive norms `p0, p1, p2` leaves the column directions unchanged:
the scale factors are the norms, the skews vanish, and the orthogonal
factor consists of the normalized columns. -/
theorem gs_orthogonal_cols (a : Mat3) (p0 p1 p2 : ℝ)
    (h0 : 0 < p0) (h1 : 0 < p1) (h2 : 0 < p2)
    (hn0 : Vec3.dot (Mat3.col0 a) (Mat3.col0 a) = p0 ^ 2)
    (hn1 : Vec3.dot (Mat3.col1 a) (Mat3.col1 a) = p1 ^ 2)
    (hn2 : Vec3.dot (Mat3.col2 a) (Mat3.col2 a) = p2 ^ 2)
    (h01 : Vec3.dot (Mat3.col0 a) (Mat3.col1 a) = 0)
    (h02 : Vec3.dot (Mat3.col0 a) (Mat3.col2 a) = 0)
    (h12 : Vec3.dot (Mat3.col1 a) (Mat3.col2 a) = 0) :
    gsScale a = ⟨p0, p1, p2⟩ ∧ gsSkew a = ⟨0, 0, 0⟩ ∧
      gsRot a = Mat3.ofCols (Vec3.smul (1 / p0) (Mat3.col0 a))
        (Vec3.smul (1 / p1) (Mat3.col1 a))
        (Vec3.smul (1 / p2) (Mat3.col2 a)) := by
  have hsx : gsSx a = p0 := by
    rw [gsSx, Vec3.norm, hn0, Real.sqrt_sq h0.le]
  have hr0 : gsR0 a = Vec3.smul (1 / p0) (Mat3.col0 a) := by
    rw [gsR0, hsx]
  have hkxy : gsKxy a = 0 := by
    rw [gsKxy, hr0, Vec3.dot_smul_left, h01, mul_zero]
  have hc1 : gsC1 a = Mat3.col1 a := by
    rw [gsC1, hkxy, Vec3.smul_zero_left, Vec3.sub_zero_right]
  have hsy : gsSy a = p1 := by
    rw [gsSy, Vec3.norm, hc1, hn1, Real.sqrt_sq h1.le]
  have hr1 : gsR1 a = Vec3.smul (1 / p1) (Mat3.col1 a) := by
    rw [gsR1, hsy, hc1]
  have hkxz : gsKxz a = 0 := by
    rw [gsKxz, hr0, Vec3.dot_smul_left, h02, mul_zero]
  have hc2 : gsC2 a = Mat3.col2 a := by
    rw [gsC2, hkxz, Vec3.smul_zero_left, Vec3.sub_zero_right]
  have hkyz : gsKyz a = 0 := by
    rw [gsKyz, hr1, hc2, Vec3.dot_smul_left, h12, mul_zero]
  have hc2b : gsC2b a = Mat3.col2 a := by
    rw [gsC2b, hkyz, Vec3.smul_zero_left, Vec3.sub_zero_right, hc2]
  have hsz : gsSz a = p2 := by
    rw [gsSz, Vec3.norm, hc2b, hn2, Real.sqrt_sq h2.le]
  refine ⟨?_, ?_, ?_⟩
  · rw [gsScale, hsx, hsy, hsz]
  · rw [gsSkew, hkxy, hkxz, hkyz]
    simp
  · rw [gsRot, hr0, hr1, gsR2, hsz, hc2b]

/-- A matrix is the matrix of its columns. -/
theorem Mat3.ofCols_cols (a : Mat3) :
    Mat3.ofCols (Mat3.col0 a) (Mat3.col1 a) (Mat3.col2 a) = a := rfl

/-- Determinant is multilinear in the columns (scalar multiples pull out). -/
theorem Mat3.det_ofCols_smul (k0 k1 k2 : ℝ) (u v w : Vec3) :
    Mat3.det (Mat3.ofCols (Vec3.smul k0 u) (Vec3.smul k1 v) (Vec3.smul k2 w)) =
      k0 * k1 * k2 * Mat3.det (Mat3.ofCols u v w) := by
  simp only [Mat3.det, Mat3.ofCols, Vec3.smul]; ring

/-- Multiplying the zero vector gives zero. -/
theorem Mat3.mulVec_zero (a : Mat3) : Mat3.mulVec a ⟨0, 0, 0⟩ = ⟨0, 0, 0⟩ := by
  simp [Mat3.mulVec]

/-- Full decomposition of a transform whose bottom row is `(0, 0, 0, 1)`
and whose upper-left 3x3 block has pairwise orthogonal columns with
positive norms `p0, p1, p2` and positive determinant: translation is read
off the last column, the scales are the norms, skew and perspective are
trivial, and the quaternion comes from the normalized columns. -/
theorem decompose_orthogonal (m : Mat4) (p0 p1 p2 : ℝ)
    (hb0 : m.m30 = 0) (hb1 : m.m31 = 0) (hb2 : m.m32 = 0) (hb3 : m.m33 = 1)
    (h0 : 0 < p0) (h1 : 0 < p1) (h2 : 0 < p2)
    (hn0 : Vec3.dot (Mat3.col0 (Mat4.upper3 m)) (Mat3.col0 (Mat4.upper3 m)) = p0 ^ 2)
    (hn1 : Vec3.dot (Mat3.col1 (Mat4.upper3 m)) (Mat3.col1 (Mat4.upper3 m)) = p1 ^ 2)
    (hn2 : Vec3.dot (Mat3.col2 (Mat4.upper3 m)) (Mat3.col2 (Mat4.upper3 m)) = p2 ^ 2)
    (h01 : Vec3.dot (Mat3.col0 (Mat4.upper3 m)) (Mat3.col1 (Mat4.upper3 m)) = 0)
    (h02 : Vec3.dot (Mat3.col0 (Mat4.upper3 m)) (Mat3.col2 (Mat4.upper3 m)) = 0)
    (h12 : Vec3.dot (Mat3.col1 (Mat4.upper3 m)) (Mat3.col2 (Mat4.upper3 m)) = 0)
    (hdet : 0 < Mat3.det (Mat4.upper3 m)) :
    decomposeTransform m =
      some ⟨⟨m.m03, m.m13, m.m23⟩, ⟨p0, p1, p2⟩, ⟨0, 0, 0⟩,
        quatOfRot (Mat3.ofCols
          (Vec3.smul (1 / p0) (Mat3.col0 (Mat4.upper3 m)))
          (Vec3.smul (1 / p1) (Mat3.col1 (Mat4.upper3 m)))
          (Vec3.smul (1 / p2) (Mat3.col2 (Mat4.upper3 m)))),
        ⟨0, 0, 0, 1⟩⟩ := by
  have hn : normalizeM m = m := normalizeM_of_one m hb3
  obtain ⟨hsc, hsk, hrot⟩ :=
    gs_orthogonal_cols (Mat4.upper3 m) p0 p1 p2 h0 h1 h2 hn0 hn1 hn2 h01 h02 h12
  have hdetR : 0 < Mat3.det (gsRot (Mat4.upper3 m)) := by
    rw [hrot, Mat3.det_ofCols_smul, Mat3.ofCols_cols]
    have hp0 : 0 < 1 / p0 := by positivity
    have hp1 : 0 < 1 / p1 := by positivity
    have hp2 : 0 < 1 / p2 := by positivity
    positivity
  have hrf : rotFactor (Mat4.upper3 m) = gsRot (Mat4.upper3 m) := by
    rw [rotFactor, if_neg (not_lt.mpr hdetR.le)]
  have hsf : scaleFactor (Mat4.upper3 m) = gsScale (Mat4.upper3 m) := by
    rw [scaleFactor, if_neg (not_lt.mpr hdetR.le)]
  have hper : perspOf m = ⟨0, 0, 0, 1⟩ := by
    simp [perspOf, hb0, hb1, hb2, Mat3.mulVec, Vec3.dot]
  simp only [decomposeTransform, hn]
  rw [if_neg (by rw [hb3]; norm_num), if_neg (ne_of_gt hdet)]
  rw [hrf, hsf, hsc, hsk, hrot, hper]

/-- The quaternion of the identity rotation is (0, 0, 0, 1). -/
theorem quatOfRot_identity : quatOfRot Mat3.identity = ⟨0, 0, 0, 1⟩ := by
  have h4 : Real.sqrt (1 + Mat3.trace Mat3.identity) = 2 := by
    rw [show (1 + Mat3.trace Mat3.identity : ℝ) = 2 ^ 2 by
      simp [Mat3.trace, Mat3.identity]; norm_num]
    exact Real.sqrt_sq (by norm_num)
  simp only [quatOfRot, h4]
  simp [Mat3.identity]

/-- Decomposing the identity transform yields the identity decomposition. -/
theorem decompose_identity :
    decomposeTransform Mat4.identity = some DecomposedTransform.identity := by
  have h := decompose_orthogonal Mat4.identity 1 1 1 rfl rfl rfl rfl
    one_pos one_pos one_pos
    (by norm_num [Vec3.dot, Mat3.col0, Mat4.upper3, Mat4.identity])
    (by norm_num [Vec3.dot, Mat3.col1, Mat4.upper3, Mat4.identity])
    (by norm_num [Vec3.dot, Mat3.col2, Mat4.upper3, Mat4.identity])
    (by norm_num [Vec3.dot, Mat3.col0, Mat3.col1, Mat4.upper3, Mat4.identity])
    (by norm_num [Vec3.dot, Mat3.col0, Mat3.col2, Mat4.upper3, Mat4.identity])
    (by norm_num [Vec3.dot, Mat3.col1, Mat3.col2, Mat4.upper3, Mat4.identity])
    (by norm_num [Mat3.det, Mat4.upper3, Mat4.identity])
  rw [h]
  have hm : Mat3.ofCols
      (Vec3.smul (1 / 1) (Mat3.col0 (Mat4.upper3 Mat4.identity)))
      (Vec3.smul (1 / 1) (Mat3.col1 (Mat4.upper3 Mat4.identity)))
      (Vec3.smul (1 / 1) (Mat3.col2 (Mat4.upper3 Mat4.identity))) =
      Mat3.identity := by
    simp [Mat3.ofCols, Vec3.smul, Mat3.col0, Mat3.col1, Mat3.col2,
      Mat4.upper3, Mat4.identity, Mat3.identity]
  rw [hm, quatOfRot_identity]
  rfl

/-! ### Claim C2: Blend at progress 0 -/

/-- C2: for every pair of transforms `from` and `to`, `Blend(from, to, 0)`
succeeds and the result equals `from` exactly — no decomposition is
performed, so this holds even for undecomposable endpoints. -/
theorem C2_blend_at_zero_is_from (f g : Mat4) : blend f g 0 = (true, f) := by
  simp [blend]

/-! ### Claim C4: GetInverse on singular matrices -/

/-- C4: for every singular (zero-determinant) transform and every initial
value of the output transform, the transform is not invertible and
`GetInverse` fails, leaving the output equal to the identity. -/
theorem C4_getInverse_singular (m out : Mat4) (h : Mat4.det m = 0) :
    ¬ isInvertible m ∧ getInverse m out = (false, Mat4.identity) := by
  refine ⟨fun hc => hc h, ?_⟩
  rw [getInverse, if_pos h]

/-- Witness for C4, the scenario of XFormTest.verifyMatrixInversion: zeroing
all four diagonal entries of the identity gives the zero matrix, which is
singular; `GetInverse` on it fails and resets an output previously holding
`Scale3d(4, 10, 100)` to the identity. -/
theorem C4_getInverse_singular_witness :
    Mat4.det ⟨0, 0, 0, 0, 0, 0, 0, 0, 0, 0, 0, 0, 0, 0, 0, 0⟩ = 0 ∧
      (¬ isInvertible ⟨0, 0, 0, 0, 0, 0, 0, 0, 0, 0, 0, 0, 0, 0, 0, 0⟩ ∧
        getInverse ⟨0, 0, 0, 0, 0, 0, 0, 0, 0, 0, 0, 0, 0, 0, 0, 0⟩
          (scaleM ⟨4, 10, 100⟩) = (false, Mat4.identity)) :=
  ⟨by norm_num [Mat4.det, Mat3.det],
   C4_getInverse_singular _ _ (by norm_num [Mat4.det, Mat3.det])⟩

/-! ### Claim C6: Blend fails cleanly when decomposition fails -/

/-- C6: for every pair of transforms and nonzero progress, if decomposition
of either endpoint fails then `Blend` returns false and leaves the target
transform unmodified. -/
theorem C6_blend_failure_leaves_target (f g : Mat4) (t : ℝ) (ht : t ≠ 0)
    (h : decomposeTransform f = none ∨ decomposeTransform g = none) :
    blend f g t = (false, g) := by
  cases hf : decomposeTransform f <;> cases hg : decomposeTransform g <;>
    simp_all [blend, ht]

/-- Witness for C6, the scenario of XFormTest.CannotBlendSingularMatrix:
blending the identity into the singular matrix obtained by zeroing entry
(1,1) of the identity fails at progress 0.5 and leaves it unmodified. -/
theorem C6_blend_failure_leaves_target_witness :
    blend Mat4.identity ⟨1, 0, 0, 0, 0, 0, 0, 0, 0, 0, 1, 0, 0, 0, 0, 1⟩
      (1 / 2) =
      (false, ⟨1, 0, 0, 0, 0, 0, 0, 0, 0, 0, 1, 0, 0, 0, 0, 1⟩) := by
  apply C6_blend_failure_leaves_target _ _ _ (by norm_num)
  right
  rw [decomposeTransform]
  rw [if_neg (by norm_num)]
  simp only [normalizeM, Mat4.smul, Mat4.upper3]
  rw [if_pos (by norm_num [Mat3.det])]

/-! ### Claim C5: the failure condition of Decompose -/

/-- C5 counterexample: a singular transform (two equal rows, zero
determinant) whose bottom-right entry is 1 and whose upper-left 3x3 block
is the identity still decomposes successfully, so it is not the case that
decomposition fails for every singular transform. -/
theorem C5_counterexample :
    Mat4.det ⟨1, 0, 0, 1, 0, 1, 0, 0, 0, 0, 1, 0, 1, 0, 0, 1⟩ = 0 ∧
      (decomposeTransform
          ⟨1, 0, 0, 1, 0, 1, 0, 0, 0, 0, 1, 0, 1, 0, 0, 1⟩).isSome = true := by
  constructor
  · norm_num [Mat4.det, Mat3.det]
  · rw [decomposeTransform]
    rw [if_neg (by norm_num)]
    simp only [normalizeM, Mat4.smul, Mat4.upper3]
    rw [if_neg (by norm_num [Mat3.det])]
    rfl

/-- C5 (amended): Decompose fails exactly when the bottom-right homogeneous
entry is zero or the upper-left 3x3 block of the normalized matrix is
singular; in particular every transform with a zero bottom-right entry
fails to decompose, but a singular transform can still decompose when that
block is invertible. -/
theorem C5_decompose_failure_condition (m : Mat4) :
    decomposeTransform m = none ↔
      m.m33 = 0 ∨ Mat3.det (Mat4.upper3 (normalizeM m)) = 0 := by
  by_cases h1 : m.m33 = 0
  · simp [decomposeTransform, h1]
  · by_cases h2 : Mat3.det (Mat4.upper3 (normalizeM m)) = 0 <;>
      simp [decomposeTransform, h1, h2]

/-! ### Claim C3: antipodal rotations cannot be blended -/

/-- Rescaling all three columns by `1/1` does nothing. -/
theorem Mat3.ofCols_smul_one (a : Mat3) :
    Mat3.ofCols (Vec3.smul (1 / 1) (Mat3.col0 a))
      (Vec3.smul (1 / 1) (Mat3.col1 a))
      (Vec3.smul (1 / 1) (Mat3.col2 a)) = a := by
  ext <;> simp [Mat3.ofCols, Vec3.smul, Mat3.col0, Mat3.col1, Mat3.col2]

/-- At nonzero progress, once both endpoints decompose, a zero quaternion
dot product (rotations exactly 180 degrees apart) makes `Blend` fail and
leave the target unmodified. -/
theorem blend_antipodal (f g : Mat4) (fd gd : DecomposedTransform) (t : ℝ)
    (ht : t ≠ 0) (hf : decomposeTransform f = some fd)
    (hg : decomposeTransform g = some gd)
    (hdot : Vec4.dot fd.quaternion gd.quaternion = 0) :
    blend f g t = (false, g) := by
  simp only [blend, if_neg ht, hf, hg, blendDecomposed, if_pos hdot]

/-- `RotateAbout(axis, 180)` for a unit axis `(a, b, c)` is the symmetric
matrix `2 v vᵀ - I`. -/
theorem rotateAboutUnitM_180 (a b c : ℝ) :
    rotateAboutUnitM a b c 180 =
      ⟨2 * a * a - 1, 2 * a * b, 2 * a * c, 0,
       2 * a * b, 2 * b * b - 1, 2 * b * c, 0,
       2 * a * c, 2 * b * c, 2 * c * c - 1, 0,
       0, 0, 0, 1⟩ := by
  have hr : deg2rad 180 = Real.pi := by rw [deg2rad]; ring
  simp only [rotateAboutUnitM, hr, Real.sin_pi, Real.cos_pi]
  ext <;> ring

/-- Decomposing a 180-degree rotation about a unit axis succeeds, with unit
scales, no skew or translation or perspective, and the degenerate zero
quaternion (the trace-formula output at exactly 180 degrees). -/
theorem rot180_decompose (a b c : ℝ) (h : a ^ 2 + b ^ 2 + c ^ 2 = 1) :
    decomposeTransform (rotateAboutUnitM a b c 180) =
      some ⟨⟨0, 0, 0⟩, ⟨1, 1, 1⟩, ⟨0, 0, 0⟩, ⟨0, 0, 0, 0⟩, ⟨0, 0, 0, 1⟩⟩ := by
  rw [rotateAboutUnitM_180]
  rw [decompose_orthogonal _ 1 1 1 rfl rfl rfl rfl one_pos one_pos one_pos
    (by simp only [Mat4.upper3, Mat3.col0, Vec3.dot]
        linear_combination (4 * a ^ 2) * h)
    (by simp only [Mat4.upper3, Mat3.col1, Vec3.dot]
        linear_combination (4 * b ^ 2) * h)
    (by simp only [Mat4.upper3, Mat3.col2, Vec3.dot]
        linear_combination (4 * c ^ 2) * h)
    (by simp only [Mat4.upper3, Mat3.col0, Mat3.col1, Vec3.dot]
        linear_combination (4 * a * b) * h)
    (by simp only [Mat4.upper3, Mat3.col0, Mat3.col2, Vec3.dot]
        linear_combination (4 * a * c) * h)
    (by simp only [Mat4.upper3, Mat3.col1, Mat3.col2, Vec3.dot]
        linear_combination (4 * b * c) * h)
    (by simp only [Mat4.upper3, Mat3.det]
        nlinarith [h])]
  rw [Mat3.ofCols_smul_one]
  have htr : Real.sqrt (1 + Mat3.trace (Mat4.upper3
      (⟨2 * a * a - 1, 2 * a * b, 2 * a * c, 0,
        2 * a * b, 2 * b * b - 1, 2 * b * c, 0,
        2 * a * c, 2 * b * c, 2 * c * c - 1, 0,
        0, 0, 0, 1⟩ : Mat4))) = 0 := by
    rw [show (1 + Mat3.trace (Mat4.upper3
        (⟨2 * a * a - 1, 2 * a * b, 2 * a * c, 0,
          2 * a * b, 2 * b * b - 1, 2 * b * c, 0,
          2 * a * c, 2 * b * c, 2 * c * c - 1, 0,
          0, 0, 0, 1⟩ : Mat4)) : ℝ) = 0 from by
      simp only [Mat4.upper3, Mat3.trace]
      linear_combination 2 * h]
    exact Real.sqrt_zero
  simp only [quatOfRot, htr]
  norm_num [Mat4.upper3]

/-- C3: blending two transforms whose rotation components are exactly 180
degrees apart (antipodal quaternions, zero quaternion dot product) fails at
any interior progress rather than choosing a rotation axis; in particular,
blending the identity into a 180-degree rotation about any (unit) axis at
progress 0.5 fails and leaves the target unmodified. -/
theorem C3_antipodal_blend_fails :
    (∀ (f g : Mat4) (fd gd : DecomposedTransform) (t : ℝ), 0 < t → t < 1 →
      decomposeTransform f = some fd → decomposeTransform g = some gd →
      Vec4.dot fd.quaternion gd.quaternion = 0 → blend f g t = (false, g)) ∧
    (∀ a b c : ℝ, a ^ 2 + b ^ 2 + c ^ 2 = 1 →
      blend Mat4.identity (rotateAboutUnitM a b c 180) (1 / 2) =
        (false, rotateAboutUnitM a b c 180)) := by
  constructor
  · intro f g fd gd t ht0 _ht1 hf hg hdot
    exact blend_antipodal f g fd gd t (ne_of_gt ht0) hf hg hdot
  · intro a b c h
    exact blend_antipodal _ _ _ _ _ (by norm_num) decompose_identity
      (rot180_decompose a b c h) (by simp [Vec4.dot, DecomposedTransform.identity])

/-- Witness for C3, the scenario of XFormTest.CannotBlend180DegreeRotation:
blending the identity into a 180-degree rotation about the z axis at
progress 0.5 fails and leaves the rotation unmodified. -/
theorem C3_antipodal_blend_fails_witness :
    blend Mat4.identity (rotateAboutUnitM 0 0 1 180) (1 / 2) =
      (false, rotateAboutUnitM 0 0 1 180) :=
  C3_antipodal_blend_fails.2 0 0 1 (by norm_num)

/-! ### Claim C8: scale blends linearly per axis -/

/-- Unfolding lemma for the 4x4 product. -/
theorem Mat4.mul4_def (a b : Mat4) : a * b = Mat4.mul a b := rfl

/-- Unfolding lemma for the 3x3 product. -/
theorem Mat3.mul_def (a b : Mat3) : a * b = Mat3.mul a b := rfl

/-- Composing a decomposition with identity rotation, no skew and trivial
perspective gives the translation-and-scale matrix. -/
theorem compose_translate_scale (t s : Vec3) :
    composeTransform ⟨t, s, ⟨0, 0, 0⟩, ⟨0, 0, 0, 1⟩, ⟨0, 0, 0, 1⟩⟩ =
      ⟨s.x, 0, 0, t.x, 0, s.y, 0, t.y, 0, 0, s.z, t.z, 0, 0, 0, 1⟩ := by
  simp only [composeTransform, Mat4.mul4_def, perspM, translationM, rotOfQuat,
    skewM, scaleM, Mat4.embed3, Mat4.mul]
  ext <;> ring

/-- Decomposing `Scale3d(5, 4, 3)` recovers exactly those scale factors and
identity components elsewhere. -/
theorem decompose_scale543 :
    decomposeTransform (scaleM ⟨5, 4, 3⟩) =
      some ⟨⟨0, 0, 0⟩, ⟨5, 4, 3⟩, ⟨0, 0, 0⟩, ⟨0, 0, 0, 1⟩, ⟨0, 0, 0, 1⟩⟩ := by
  rw [decompose_orthogonal _ 5 4 3 rfl rfl rfl rfl
    (by norm_num) (by norm_num) (by norm_num)
    (by norm_num [Vec3.dot, Mat3.col0, Mat4.upper3, scaleM])
    (by norm_num [Vec3.dot, Mat3.col1, Mat4.upper3, scaleM])
    (by norm_num [Vec3.dot, Mat3.col2, Mat4.upper3, scaleM])
    (by norm_num [Vec3.dot, Mat3.col0, Mat3.col1, Mat4.upper3, scaleM])
    (by norm_num [Vec3.dot, Mat3.col0, Mat3.col2, Mat4.upper3, scaleM])
    (by norm_num [Vec3.dot, Mat3.col1, Mat3.col2, Mat4.upper3, scaleM])
    (by norm_num [Mat3.det, Mat4.upper3, scaleM])]
  have hm : Mat3.ofCols
      (Vec3.smul (1 / 5) (Mat3.col0 (Mat4.upper3 (scaleM ⟨5, 4, 3⟩))))
      (Vec3.smul (1 / 4) (Mat3.col1 (Mat4.upper3 (scaleM ⟨5, 4, 3⟩))))
      (Vec3.smul (1 / 3) (Mat3.col2 (Mat4.upper3 (scaleM ⟨5, 4, 3⟩)))) =
      Mat3.identity := by
    ext <;> norm_num [Mat3.ofCols, Vec3.smul, Mat3.col0, Mat3.col1,
      Mat3.col2, Mat4.upper3, scaleM, Mat3.identity]
  rw [hm, quatOfRot_identity]
  rfl

/-- C8: `Blend` interpolates the scale component linearly and independently
per axis (`result = from * (1 - t) + to * t`); concretely, `Scale3d(5,4,3)`
blended from the identity at progress 0.5 yields the diagonal matrix
`(3, 2.5, 2, 1)`. -/
theorem C8_blend_scale_linear :
    (∀ (fd gd : DecomposedTransform) (t : ℝ) (bd : DecomposedTransform),
      blendDecomposed fd gd t = some bd →
      bd.scale.x = fd.scale.x * (1 - t) + gd.scale.x * t ∧
      bd.scale.y = fd.scale.y * (1 - t) + gd.scale.y * t ∧
      bd.scale.z = fd.scale.z * (1 - t) + gd.scale.z * t) ∧
    blend Mat4.identity (scaleM ⟨5, 4, 3⟩) (1 / 2) =
      (true, ⟨3, 0, 0, 0, 0, 5 / 2, 0, 0, 0, 0, 2, 0, 0, 0, 0, 1⟩) := by
  constructor
  · intro fd gd t bd hbd
    by_cases hdot : Vec4.dot fd.quaternion gd.quaternion = 0
    · simp [blendDecomposed, hdot] at hbd
    · simp only [blendDecomposed, if_neg hdot, Option.some_inj] at hbd
      rw [← hbd]
      simp [lerp3, lerp]
  · have hslerp : slerp (⟨0, 0, 0, 1⟩ : Vec4) ⟨0, 0, 0, 1⟩ (1 / 2) =
        ⟨0, 0, 0, 1⟩ := by
      norm_num [slerp, Vec4.dot]
    have hbd : blendDecomposed DecomposedTransform.identity
        ⟨⟨0, 0, 0⟩, ⟨5, 4, 3⟩, ⟨0, 0, 0⟩, ⟨0, 0, 0, 1⟩, ⟨0, 0, 0, 1⟩⟩
        (1 / 2) =
        some ⟨⟨0, 0, 0⟩, ⟨3, 5 / 2, 2⟩, ⟨0, 0, 0⟩, ⟨0, 0, 0, 1⟩,
          ⟨0, 0, 0, 1⟩⟩ := by
      rw [blendDecomposed, if_neg (by norm_num [Vec4.dot,
        DecomposedTransform.identity])]
      simp only [DecomposedTransform.identity, hslerp]
      norm_num [lerp3, lerp4, lerp]
    simp only [blend, if_neg (by norm_num : ¬((1 : ℝ) / 2 = 0)),
      decompose_identity, decompose_scale543, hbd]
    rw [compose_translate_scale]

/-- Witness for C8: the linear scale interpolation applied at the identity
decomposition on both sides at progress 0.5. -/
theorem C8_blend_scale_linear_witness :
    DecomposedTransform.identity.scale.x =
      DecomposedTransform.identity.scale.x * (1 - 1 / 2) +
        DecomposedTransform.identity.scale.x * (1 / 2) ∧
    DecomposedTransform.identity.scale.y =
      DecomposedTransform.identity.scale.y * (1 - 1 / 2) +
        DecomposedTransform.identity.scale.y * (1 / 2) ∧
    DecomposedTransform.identity.scale.z =
      DecomposedTransform.identity.scale.z * (1 - 1 / 2) +
        DecomposedTransform.identity.scale.z * (1 / 2) :=
  C8_blend_scale_linear.1 DecomposedTransform.identity
    DecomposedTransform.identity (1 / 2) DecomposedTransform.identity
    (by rw [blendDecomposed,
          if_neg (by norm_num [Vec4.dot, DecomposedTransform.identity])]
        norm_num [slerp, Vec4.dot, DecomposedTransform.identity, lerp3,
          lerp4, lerp])

/-! ### General Gram-Schmidt factorization (for the round-trip claims) -/

/-- Bilinearity: dot product with a scalar multiple on the right. -/
theorem Vec3.dot_smul_right (k : ℝ) (u v : Vec3) :
    Vec3.dot u (Vec3.smul k v) = k * Vec3.dot u v := by
  simp only [Vec3.dot, Vec3.smul]; ring

/-- Bilinearity: dot product with a difference on the right. -/
theorem Vec3.dot_sub_right (u v w : Vec3) :
    Vec3.dot u (Vec3.sub v w) = Vec3.dot u v - Vec3.dot u w := by
  simp only [Vec3.dot, Vec3.sub]; ring

/-- Dot squares are nonnegative. -/
theorem Vec3.dot_self_nonneg (v : Vec3) : 0 ≤ Vec3.dot v v := by
  simp only [Vec3.dot]; nlinarith [sq_nonneg v.x, sq_nonneg v.y, sq_nonneg v.z]

/-- A vector with zero self-dot is the zero vector. -/
theorem Vec3.eq_zero_of_dot_self (v : Vec3) (h : Vec3.dot v v = 0) :
    v = ⟨0, 0, 0⟩ := by
  simp only [Vec3.dot] at h
  have hx : v.x = 0 := by nlinarith [sq_nonneg v.x, sq_nonneg v.y, sq_nonneg v.z]
  have hy : v.y = 0 := by nlinarith [sq_nonneg v.x, sq_nonneg v.y, sq_nonneg v.z]
  have hz : v.z = 0 := by nlinarith [sq_nonneg v.x, sq_nonneg v.y, sq_nonneg v.z]
  ext <;> simp [hx, hy, hz]

/-- The norm squares back to the self-dot. -/
theorem Vec3.norm_mul_self (v : Vec3) :
    Vec3.norm v * Vec3.norm v = Vec3.dot v v :=
  Real.mul_self_sqrt (Vec3.dot_self_nonneg v)

/-- A zero norm forces the zero vector. -/
theorem Vec3.eq_zero_of_norm_eq_zero (v : Vec3) (h : Vec3.norm v = 0) :
    v = ⟨0, 0, 0⟩ := by
  apply Vec3.eq_zero_of_dot_self
  rw [← Vec3.norm_mul_self, h, mul_zero]

/-- The determinant vanishes when the first column is zero. -/
theorem Mat3.det_zero_col0 (v w : Vec3) :
    Mat3.det (Mat3.ofCols ⟨0, 0, 0⟩ v w) = 0 := by
  simp only [Mat3.det, Mat3.ofCols]; ring

/-- The determinant vanishes when the second column is zero. -/
theorem Mat3.det_zero_col1 (u w : Vec3) :
    Mat3.det (Mat3.ofCols u ⟨0, 0, 0⟩ w) = 0 := by
  simp only [Mat3.det, Mat3.ofCols]; ring

/-- The determinant vanishes when the third column is zero. -/
theorem Mat3.det_zero_col2 (u v : Vec3) :
    Mat3.det (Mat3.ofCols u v ⟨0, 0, 0⟩) = 0 := by
  simp only [Mat3.det, Mat3.ofCols]; ring

/-- Column operation: subtracting a multiple of the first column from the
second leaves the determinant unchanged. -/
theorem Mat3.det_col1_sub (u v w : Vec3) (k : ℝ) :
    Mat3.det (Mat3.ofCols u (Vec3.sub v (Vec3.smul k u)) w) =
      Mat3.det (Mat3.ofCols u v w) := by
  simp only [Mat3.det, Mat3.ofCols, Vec3.sub, Vec3.smul]; ring

/-- Column operation: subtracting multiples of the first two columns from
the third leaves the determinant unchanged. -/
theorem Mat3.det_col2_sub (u v w : Vec3) (k1 k2 : ℝ) :
    Mat3.det (Mat3.ofCols u v
      (Vec3.sub (Vec3.sub w (Vec3.smul k1 u)) (Vec3.smul k2 v))) =
      Mat3.det (Mat3.ofCols u v w) := by
  simp only [Mat3.det, Mat3.ofCols, Vec3.sub, Vec3.smul]; ring

/-- The first orthogonalized column as an explicit combination of the
original columns. -/
theorem gsC1_as_combination (a : Mat3) :
    gsC1 a = Vec3.sub (Mat3.col1 a)
      (Vec3.smul (gsKxy a * (1 / gsSx a)) (Mat3.col0 a)) := by
  simp only [gsC1, gsR0, Vec3.sub, Vec3.smul]
  ext <;> ring

/-- The second orthogonalized column as an explicit combination of the
original first column and the intermediate `gsC1`. -/
theorem gsC2b_as_combination (a : Mat3) :
    gsC2b a = Vec3.sub (Vec3.sub (Mat3.col2 a)
        (Vec3.smul (gsKxz a * (1 / gsSx a) -
          gsKyz a * (1 / gsSy a) * (gsKxy a * (1 / gsSx a))) (Mat3.col0 a)))
      (Vec3.smul (gsKyz a * (1 / gsSy a)) (Mat3.col1 a)) := by
  simp only [gsC2b, gsC2, gsR1, gsC1, gsR0, Vec3.sub, Vec3.smul]
  ext <;> ring

/-- If the matrix is invertible, the first Gram-Schmidt norm is nonzero. -/
theorem gsSx_ne_zero (a : Mat3) (hdet : Mat3.det a ≠ 0) : gsSx a ≠ 0 := by
  intro h
  apply hdet
  have h0 : Mat3.col0 a = ⟨0, 0, 0⟩ := Vec3.eq_zero_of_norm_eq_zero _ h
  rw [← Mat3.ofCols_cols a, h0, Mat3.det_zero_col0]

/-- If the matrix is invertible, the second Gram-Schmidt norm is nonzero. -/
theorem gsSy_ne_zero (a : Mat3) (hdet : Mat3.det a ≠ 0) : gsSy a ≠ 0 := by
  intro h
  apply hdet
  have h0 : gsC1 a = ⟨0, 0, 0⟩ := Vec3.eq_zero_of_norm_eq_zero _ h
  have h1 := Mat3.det_col1_sub (Mat3.col0 a) (Mat3.col1 a) (Mat3.col2 a)
    (gsKxy a * (1 / gsSx a))
  rw [← gsC1_as_combination, h0, Mat3.det_zero_col1, Mat3.ofCols_cols] at h1
  exact h1.symm

/-- If the matrix is invertible, the third Gram-Schmidt norm is nonzero. -/
theorem gsSz_ne_zero (a : Mat3) (hdet : Mat3.det a ≠ 0) : gsSz a ≠ 0 := by
  intro h
  apply hdet
  have h0 : gsC2b a = ⟨0, 0, 0⟩ := Vec3.eq_zero_of_norm_eq_zero _ h
  have h1 := Mat3.det_col2_sub (Mat3.col0 a) (Mat3.col1 a) (Mat3.col2 a)
    (gsKxz a * (1 / gsSx a) - gsKyz a * (1 / gsSy a) * (gsKxy a * (1 / gsSx a)))
    (gsKyz a * (1 / gsSy a))
  rw [← gsC2b_as_combination, h0, Mat3.det_zero_col2, Mat3.ofCols_cols] at h1
  exact h1.symm

/-- The product of the transpose of a column matrix with itself consists of
the pairwise dot products. -/
theorem Mat3.transpose_mul_ofCols (u v w : Vec3) :
    Mat3.mul (Mat3.transpose (Mat3.ofCols u v w)) (Mat3.ofCols u v w) =
      ⟨Vec3.dot u u, Vec3.dot u v, Vec3.dot u w,
       Vec3.dot v u, Vec3.dot v v, Vec3.dot v w,
       Vec3.dot w u, Vec3.dot w v, Vec3.dot w w⟩ := by
  simp only [Mat3.mul, Mat3.transpose, Mat3.ofCols, Vec3.dot]
  all_goals ext <;> ring

/-- The first two Gram-Schmidt axes are orthogonal unit vectors (given the
norms are nonzero), and the third intermediate column is orthogonal to
both. -/
theorem gs_dots (a : Mat3) (hdet : Mat3.det a ≠ 0) :
    Vec3.dot (gsR0 a) (gsR0 a) = 1 ∧ Vec3.dot (gsR1 a) (gsR1 a) = 1 ∧
    Vec3.dot (gsR2 a) (gsR2 a) = 1 ∧ Vec3.dot (gsR0 a) (gsR1 a) = 0 ∧
    Vec3.dot (gsR0 a) (gsR2 a) = 0 ∧ Vec3.dot (gsR1 a) (gsR2 a) = 0 := by
  have hx := gsSx_ne_zero a hdet
  have hy := gsSy_ne_zero a hdet
  have hz := gsSz_ne_zero a hdet
  have hx2 : gsSx a * gsSx a = Vec3.dot (Mat3.col0 a) (Mat3.col0 a) :=
    Vec3.norm_mul_self _
  have hy2 : gsSy a * gsSy a = Vec3.dot (gsC1 a) (gsC1 a) :=
    Vec3.norm_mul_self _
  have hz2 : gsSz a * gsSz a = Vec3.dot (gsC2b a) (gsC2b a) :=
    Vec3.norm_mul_self _
  have d00 : Vec3.dot (gsR0 a) (gsR0 a) = 1 := by
    rw [gsR0, Vec3.dot_smul_left, Vec3.dot_smul_right, ← hx2]
    field_simp
  have d01 : Vec3.dot (gsR0 a) (gsC1 a) = 0 := by
    rw [gsC1, Vec3.dot_sub_right, Vec3.dot_smul_right, d00, gsKxy]
    ring
  have d0r1 : Vec3.dot (gsR0 a) (gsR1 a) = 0 := by
    rw [gsR1, Vec3.dot_smul_right, d01, mul_zero]
  have d11 : Vec3.dot (gsR1 a) (gsR1 a) = 1 := by
    rw [gsR1, Vec3.dot_smul_left, Vec3.dot_smul_right, ← hy2]
    field_simp
  have d02 : Vec3.dot (gsR0 a) (gsC2 a) = 0 := by
    rw [gsC2, Vec3.dot_sub_right, Vec3.dot_smul_right, d00, gsKxz]
    ring
  have d0b : Vec3.dot (gsR0 a) (gsC2b a) = 0 := by
    rw [gsC2b, Vec3.dot_sub_right, Vec3.dot_smul_right, d02, d0r1]
    ring
  have d1b : Vec3.dot (gsR1 a) (gsC2b a) = 0 := by
    rw [gsC2b, Vec3.dot_sub_right, Vec3.dot_smul_right, d11, gsKyz]
    ring
  have d0r2 : Vec3.dot (gsR0 a) (gsR2 a) = 0 := by
    rw [gsR2, Vec3.dot_smul_right, d0b, mul_zero]
  have d1r2 : Vec3.dot (gsR1 a) (gsR2 a) = 0 := by
    rw [gsR2, Vec3.dot_smul_right, d1b, mul_zero]
  have d22 : Vec3.dot (gsR2 a) (gsR2 a) = 1 := by
    rw [gsR2, Vec3.dot_smul_left, Vec3.dot_smul_right, ← hz2]
    field_simp
  exact ⟨d00, d11, d22, d0r1, d0r2, d1r2⟩

/-- The Gram-Schmidt orthogonal factor has orthonormal columns. -/
theorem gsRot_orthonormal (a : Mat3) (hdet : Mat3.det a ≠ 0) :
    Mat3.mul (Mat3.transpose (gsRot a)) (gsRot a) = Mat3.identity := by
  obtain ⟨d00, d11, d22, d01, d02, d12⟩ := gs_dots a hdet
  rw [gsRot, Mat3.transpose_mul_ofCols, d00, d11, d22, d01, d02, d12,
    Vec3.dot_comm (gsR1 a) (gsR0 a), d01, Vec3.dot_comm (gsR2 a) (gsR0 a),
    d02, Vec3.dot_comm (gsR2 a) (gsR1 a), d12]
  rfl

/-- The product of the skew matrix and the scale matrix is the
upper-triangular factor of the QR decomposition. -/
theorem skewM_mul_scaleD (k s : Vec3) :
    Mat3.mul (skewM k) (scaleD s) =
      ⟨s.x, k.x * s.y, k.y * s.z, 0, s.y, k.z * s.z, 0, 0, s.z⟩ := by
  simp only [Mat3.mul, skewM, scaleD]
  ext <;> ring

/-- Multiplying a column matrix by an upper-triangular matrix combines the
columns. -/
theorem Mat3.ofCols_mul_upper (u v w : Vec3) (a b c d e f : ℝ) :
    Mat3.mul (Mat3.ofCols u v w) ⟨a, b, c, 0, d, e, 0, 0, f⟩ =
      Mat3.ofCols (Vec3.smul a u)
        (Vec3.add (Vec3.smul b u) (Vec3.smul d v))
        (Vec3.add (Vec3.add (Vec3.smul c u) (Vec3.smul e v))
          (Vec3.smul f w)) := by
  simp only [Mat3.mul, Mat3.ofCols, Vec3.smul, Vec3.add]
  ext <;> ring

/-- The QR factorization identity: for an invertible matrix, the orthogonal
factor times the skew matrix times the scale matrix reproduces the
matrix. -/
theorem gs_factorization (a : Mat3) (hdet : Mat3.det a ≠ 0) :
    Mat3.mul (gsRot a) (Mat3.mul (skewM (gsSkew a)) (scaleD (gsScale a))) =
      a := by
  have hx := gsSx_ne_zero a hdet
  have hy := gsSy_ne_zero a hdet
  have hz := gsSz_ne_zero a hdet
  have htri : Mat3.mul (skewM (gsSkew a)) (scaleD (gsScale a)) =
      ⟨gsSx a, gsKxy a / gsSy a * gsSy a, gsKxz a / gsSz a * gsSz a,
       0, gsSy a, gsKyz a / gsSz a * gsSz a, 0, 0, gsSz a⟩ := by
    simp only [skewM, scaleD, gsSkew, gsScale, Mat3.mul]
    ext <;> ring
  have hcol0 : Vec3.smul (gsSx a) (gsR0 a) = Mat3.col0 a := by
    rw [gsR0]
    ext <;> simp only [Vec3.smul] <;> field_simp
  have hcol1 : Vec3.add (Vec3.smul (gsKxy a / gsSy a * gsSy a) (gsR0 a))
      (Vec3.smul (gsSy a) (gsR1 a)) = Mat3.col1 a := by
    rw [gsR1, gsC1]
    ext <;> simp only [Vec3.add, Vec3.smul, Vec3.sub] <;> field_simp <;> ring
  have hcol2 : Vec3.add (Vec3.add
      (Vec3.smul (gsKxz a / gsSz a * gsSz a) (gsR0 a))
      (Vec3.smul (gsKyz a / gsSz a * gsSz a) (gsR1 a)))
      (Vec3.smul (gsSz a) (gsR2 a)) = Mat3.col2 a := by
    rw [gsR2, gsC2b, gsC2]
    ext <;> simp only [Vec3.add, Vec3.smul, Vec3.sub] <;> field_simp <;> ring
  rw [htri, gsRot, Mat3.ofCols_mul_upper, hcol0, hcol1, hcol2,
    Mat3.ofCols_cols]

/-- Negation distributes out of a product on the left. -/
theorem Mat3.neg_mul (a b : Mat3) :
    Mat3.mul (Mat3.neg a) b = Mat3.neg (Mat3.mul a b) := by
  simp only [Mat3.mul, Mat3.neg]
  ext <;> ring

/-- Negation distributes out of a product on the right. -/
theorem Mat3.mul_neg (a b : Mat3) :
    Mat3.mul a (Mat3.neg b) = Mat3.neg (Mat3.mul a b) := by
  simp only [Mat3.mul, Mat3.neg]
  ext <;> ring

/-- Double negation cancels. -/
theorem Mat3.neg_neg (a : Mat3) : Mat3.neg (Mat3.neg a) = a := by
  simp only [Mat3.neg]
  ext <;> ring

/-- The scale matrix of a negated scale vector is the negated scale
matrix. -/
theorem scaleD_neg (s : Vec3) : scaleD (Vec3.neg s) = Mat3.neg (scaleD s) := by
  simp only [scaleD, Vec3.neg, Mat3.neg]
  ext <;> ring

/-- Transposition commutes with negation. -/
theorem Mat3.transpose_neg (a : Mat3) :
    Mat3.transpose (Mat3.neg a) = Mat3.neg (Mat3.transpose a) := rfl

/-- Determinants are multiplicative. -/
theorem Mat3.det_mul (a b : Mat3) :
    Mat3.det (Mat3.mul a b) = Mat3.det a * Mat3.det b := by
  simp only [Mat3.det, Mat3.mul]
  ring

/-- Transposition preserves the determinant. -/
theorem Mat3.det_transpose (a : Mat3) :
    Mat3.det (Mat3.transpose a) = Mat3.det a := by
  simp only [Mat3.det, Mat3.transpose]
  ring

/-- Negation flips the sign of a 3x3 determinant. -/
theorem Mat3.det_neg (a : Mat3) : Mat3.det (Mat3.neg a) = -Mat3.det a := by
  simp only [Mat3.det, Mat3.neg]
  ring

/-- The identity has determinant 1. -/
theorem Mat3.det_identity : Mat3.det Mat3.identity = 1 := by
  norm_num [Mat3.det, Mat3.identity]

/-- The determinant of the Gram-Schmidt orthogonal factor squares to 1. -/
theorem det_gsRot_sq (a : Mat3) (hdet : Mat3.det a ≠ 0) :
    Mat3.det (gsRot a) * Mat3.det (gsRot a) = 1 := by
  have h := congrArg Mat3.det (gsRot_orthonormal a hdet)
  rw [Mat3.det_mul, Mat3.det_transpose, Mat3.det_identity] at h
  exact h

/-- The sign-fixed rotation factor also factors the matrix through skew and
(sign-fixed) scale. -/
theorem gs_factorization_final (a : Mat3) (hdet : Mat3.det a ≠ 0) :
    Mat3.mul (rotFactor a)
      (Mat3.mul (skewM (gsSkew a)) (scaleD (scaleFactor a))) = a := by
  rw [rotFactor, scaleFactor]
  by_cases h : Mat3.det (gsRot a) < 0
  · rw [if_pos h, if_pos h, scaleD_neg, Mat3.mul_neg, Mat3.neg_mul,
      Mat3.mul_neg, Mat3.neg_neg]
    exact gs_factorization a hdet
  · rw [if_neg h, if_neg h]
    exact gs_factorization a hdet

/-- The sign-fixed rotation factor has orthonormal columns. -/
theorem rotFactor_orthonormal (a : Mat3) (hdet : Mat3.det a ≠ 0) :
    Mat3.mul (Mat3.transpose (rotFactor a)) (rotFactor a) = Mat3.identity := by
  rw [rotFactor]
  by_cases h : Mat3.det (gsRot a) < 0
  · rw [if_pos h, Mat3.transpose_neg, Mat3.neg_mul, Mat3.mul_neg,
      Mat3.neg_neg]
    exact gsRot_orthonormal a hdet
  · rw [if_neg h]
    exact gsRot_orthonormal a hdet

/-- The sign-fixed rotation factor is a proper rotation: determinant 1. -/
theorem rotFactor_det_one (a : Mat3) (hdet : Mat3.det a ≠ 0) :
    Mat3.det (rotFactor a) = 1 := by
  have hsq := det_gsRot_sq a hdet
  have hcases : Mat3.det (gsRot a) = 1 ∨ Mat3.det (gsRot a) = -1 := by
    have : (Mat3.det (gsRot a) - 1) * (Mat3.det (gsRot a) + 1) = 0 := by
      linear_combination hsq
    rcases mul_eq_zero.mp this with h | h
    · left; linarith
    · right; linarith
  rw [rotFactor]
  by_cases h : Mat3.det (gsRot a) < 0
  · rw [if_pos h, Mat3.det_neg]
    rcases hcases with h1 | h1
    · exfalso; rw [h1] at h; linarith
    · rw [h1]; ring
  · rw [if_neg h]
    rcases hcases with h1 | h1
    · exact h1
    · exfalso; rw [h1] at h; exact h (by norm_num)

/-- Associativity of the 3x3 product. -/
theorem Mat3.mul_assoc (a b c : Mat3) :
    Mat3.mul (Mat3.mul a b) c = Mat3.mul a (Mat3.mul b c) := by
  simp only [Mat3.mul]
  ext <;> ring

/-- Left identity. -/
theorem Mat3.identity_mul (a : Mat3) : Mat3.mul Mat3.identity a = a := by
  simp only [Mat3.mul, Mat3.identity]
  ext <;> ring

/-- Right identity. -/
theorem Mat3.mul_identity (a : Mat3) : Mat3.mul a Mat3.identity = a := by
  simp only [Mat3.mul, Mat3.identity]
  ext <;> ring

/-- A matrix with orthonormal columns and determinant 1 has its adjugate
equal to its transpose (equivalently, every entry equals its cofactor). -/
theorem adjugate_eq_transpose (r : Mat3)
    (horth : Mat3.mul (Mat3.transpose r) r = Mat3.identity)
    (hdet : Mat3.det r = 1) :
    Mat3.adjugate r = Mat3.transpose r := by
  have h1 : Mat3.mul r (Mat3.adjugate r) = Mat3.identity := by
    have := Mat3.mul_adjugate r
    rw [Mat3.mul_def] at this
    rw [this, hdet]
    simp only [Mat3.smul, Mat3.identity]
    ext <;> ring
  calc Mat3.adjugate r = Mat3.mul Mat3.identity (Mat3.adjugate r) :=
        (Mat3.identity_mul _).symm
    _ = Mat3.mul (Mat3.mul (Mat3.transpose r) r) (Mat3.adjugate r) := by
        rw [horth]
    _ = Mat3.mul (Mat3.transpose r) (Mat3.mul r (Mat3.adjugate r)) :=
        Mat3.mul_assoc _ _ _
    _ = Mat3.mul (Mat3.transpose r) Mat3.identity := by rw [h1]
    _ = Mat3.transpose r := Mat3.mul_identity _

/-- Rows of a matrix with orthonormal columns and determinant 1 are also
orthonormal. -/
theorem rows_orthonormal (r : Mat3)
    (horth : Mat3.mul (Mat3.transpose r) r = Mat3.identity)
    (hdet : Mat3.det r = 1) :
    Mat3.mul r (Mat3.transpose r) = Mat3.identity := by
  rw [← adjugate_eq_transpose r horth hdet]
  have := Mat3.mul_adjugate r
  rw [Mat3.mul_def] at this
  rw [this, hdet]
  simp only [Mat3.smul, Mat3.identity]
  ext <;> ring

/-- The quaternion round trip: converting a proper rotation (orthonormal
columns, determinant 1) whose angle is not 180 degrees (`1 + trace > 0`)
to a quaternion and back to a matrix recovers the rotation exactly. -/
theorem rotOfQuat_quatOfRot (r : Mat3)
    (horth : Mat3.mul (Mat3.transpose r) r = Mat3.identity)
    (hdet : Mat3.det r = 1)
    (htr : 0 < 1 + Mat3.trace r) :
    rotOfQuat (quatOfRot r) = r := by
  have hrow := rows_orthonormal r horth hdet
  have hadj := adjugate_eq_transpose r horth hdet
  simp only [Mat3.mul, Mat3.transpose, Mat3.identity, Mat3.adjugate]
    at horth hrow hadj
  rw [Mat3.mk.injEq] at horth hrow hadj
  obtain ⟨hc00, hc01, hc02, hc10, hc11, hc12, hc20, hc21, hc22⟩ := horth
  obtain ⟨hr00, hr01, hr02, hr10, hr11, hr12, hr20, hr21, hr22⟩ := hrow
  obtain ⟨k00, k01, k02, k10, k11, k12, k20, k21, k22⟩ := hadj
  have hu2 : Real.sqrt (1 + Mat3.trace r) * Real.sqrt (1 + Mat3.trace r) =
      1 + (r.m00 + r.m11 + r.m22) := by
    rw [Real.mul_self_sqrt htr.le, Mat3.trace]
  have hune : Real.sqrt (1 + Mat3.trace r) ≠ 0 :=
    (Real.sqrt_pos.mpr htr).ne'
  have key00 : (r.m02 - r.m20) * (r.m02 - r.m20) +
      (r.m10 - r.m01) * (r.m10 - r.m01) =
      2 * (1 + (r.m00 + r.m11 + r.m22)) * (1 - r.m00) := by
    linear_combination hr00 + hc00 + 2 * k22 + 2 * k11
  have key11 : (r.m21 - r.m12) * (r.m21 - r.m12) +
      (r.m10 - r.m01) * (r.m10 - r.m01) =
      2 * (1 + (r.m00 + r.m11 + r.m22)) * (1 - r.m11) := by
    linear_combination hr11 + hc11 + 2 * k22 + 2 * k00
  have key22 : (r.m21 - r.m12) * (r.m21 - r.m12) +
      (r.m02 - r.m20) * (r.m02 - r.m20) =
      2 * (1 + (r.m00 + r.m11 + r.m22)) * (1 - r.m22) := by
    linear_combination hr22 + hc22 + 2 * k11 + 2 * k00
  have keyA : (r.m21 - r.m12) * (r.m02 - r.m20) =
      (1 + (r.m00 + r.m11 + r.m22)) * (r.m10 + r.m01) := by
    linear_combination k01 + k10 - hc01 - hr01
  have keyB : (r.m21 - r.m12) * (r.m10 - r.m01) =
      (1 + (r.m00 + r.m11 + r.m22)) * (r.m02 + r.m20) := by
    linear_combination k02 + k20 - hc02 - hr02
  have keyC : (r.m02 - r.m20) * (r.m10 - r.m01) =
      (1 + (r.m00 + r.m11 + r.m22)) * (r.m21 + r.m12) := by
    linear_combination k12 + k21 - hc12 - hr12
  simp only [rotOfQuat, quatOfRot]
  ext
  · field_simp
    linear_combination (4 * (1 - r.m00)) * hu2 - 2 * key00
  · field_simp
    linear_combination (8 * Real.sqrt (1 + Mat3.trace r)) * keyA -
      (8 * Real.sqrt (1 + Mat3.trace r)) * (r.m01 + r.m10) * hu2
  · field_simp
    linear_combination (8 * Real.sqrt (1 + Mat3.trace r)) * keyB -
      (8 * Real.sqrt (1 + Mat3.trace r)) * (r.m02 + r.m20) * hu2
  · field_simp
    linear_combination (8 * Real.sqrt (1 + Mat3.trace r)) * keyA -
      (8 * Real.sqrt (1 + Mat3.trace r)) * (r.m10 + r.m01) * hu2
  · field_simp
    linear_combination (4 * (1 - r.m11)) * hu2 - 2 * key11
  · field_simp
    linear_combination (8 * Real.sqrt (1 + Mat3.trace r)) * keyC -
      (8 * Real.sqrt (1 + Mat3.trace r)) * (r.m12 + r.m21) * hu2
  · field_simp
    linear_combination (8 * Real.sqrt (1 + Mat3.trace r)) * keyB -
      (8 * Real.sqrt (1 + Mat3.trace r)) * (r.m20 + r.m02) * hu2
  · field_simp
    linear_combination (8 * Real.sqrt (1 + Mat3.trace r)) * keyC -
      (8 * Real.sqrt (1 + Mat3.trace r)) * (r.m21 + r.m12) * hu2
  · field_simp
    linear_combination (4 * (1 - r.m22)) * hu2 - 2 * key22

/-- Associativity of the 4x4 product. -/
theorem Mat4.mul4_assoc (a b c : Mat4) :
    a * b * c = a * (b * c) := by
  simp only [Mat4.mul4_def, Mat4.mul]
  ext <;> ring

/-- Embedding into 4x4 preserves products. -/
theorem Mat4.embed3_mul (a b : Mat3) :
    Mat4.embed3 a * Mat4.embed3 b = Mat4.embed3 (Mat3.mul a b) := by
  simp only [Mat4.mul4_def, Mat4.mul, Mat4.embed3, Mat3.mul]
  ext <;> ring

/-- The 4x4 scale matrix is the embedded 3x3 diagonal scale. -/
theorem scaleM_eq_embed (s : Vec3) : scaleM s = Mat4.embed3 (scaleD s) := rfl

/-- Unfolding a successful decomposition into its components. -/
theorem decompose_eq_some (m : Mat4) (h33 : m.m33 ≠ 0)
    (hdet : Mat3.det (Mat4.upper3 (normalizeM m)) ≠ 0) :
    decomposeTransform m =
      some ⟨⟨(normalizeM m).m03, (normalizeM m).m13, (normalizeM m).m23⟩,
        scaleFactor (Mat4.upper3 (normalizeM m)),
        gsSkew (Mat4.upper3 (normalizeM m)),
        quatOfRot (rotFactor (Mat4.upper3 (normalizeM m))),
        perspOf (normalizeM m)⟩ := by
  simp only [decomposeTransform]
  rw [if_neg h33, if_neg hdet]

/-- Matrix-vector products compose. -/
theorem Mat3.mulVec_mulVec (x y : Mat3) (v : Vec3) :
    Mat3.mulVec x (Mat3.mulVec y v) = Mat3.mulVec (Mat3.mul x y) v := by
  simp only [Mat3.mulVec, Mat3.mul]
  ext <;> ring

/-- Transposition reverses products. -/
theorem Mat3.transpose_mul (x y : Mat3) :
    Mat3.transpose (Mat3.mul x y) =
      Mat3.mul (Mat3.transpose y) (Mat3.transpose x) := by
  simp only [Mat3.mul, Mat3.transpose]
  ext <;> ring

/-- The identity acts trivially on vectors. -/
theorem Mat3.identity_mulVec (v : Vec3) :
    Mat3.mulVec Mat3.identity v = v := by
  simp only [Mat3.mulVec, Mat3.identity]
  ext <;> ring

/-- Moving a matrix across the dot product transposes it. -/
theorem Mat3.dot_mulVec_transpose (x : Mat3) (u v : Vec3) :
    Vec3.dot (Mat3.mulVec (Mat3.transpose x) u) v =
      Vec3.dot u (Mat3.mulVec x v) := by
  simp only [Vec3.dot, Mat3.mulVec, Mat3.transpose]
  ring

/-- The explicit form of `perspective * translation * embedded linear
part`. -/
theorem perspM_mul_translationM_mul_embed (p : Vec4) (t : Vec3) (a3 : Mat3) :
    perspM p * translationM t * Mat4.embed3 a3 =
      ⟨a3.m00, a3.m01, a3.m02, t.x,
       a3.m10, a3.m11, a3.m12, t.y,
       a3.m20, a3.m21, a3.m22, t.z,
       p.x * a3.m00 + p.y * a3.m10 + p.z * a3.m20,
       p.x * a3.m01 + p.y * a3.m11 + p.z * a3.m21,
       p.x * a3.m02 + p.y * a3.m12 + p.z * a3.m22,
       p.x * t.x + p.y * t.y + p.z * t.z + p.w⟩ := by
  simp only [Mat4.mul4_def, Mat4.mul, perspM, translationM, Mat4.embed3]
  ext <;> ring

/-- Reassembling the perspective, translation and linear parts of a
normalized matrix (bottom-right entry 1, invertible upper 3x3 block)
recovers the matrix: the perspective components were chosen as the solution
of the corresponding linear system. -/
theorem persp_translate_assemble (n : Mat4) (h33 : n.m33 = 1)
    (hdet : Mat3.det (Mat4.upper3 n) ≠ 0) :
    perspM (perspOf n) * translationM ⟨n.m03, n.m13, n.m23⟩ *
      Mat4.embed3 (Mat4.upper3 n) = n := by
  rw [perspM_mul_translationM_mul_embed]
  have hvec : Mat3.mulVec (Mat3.transpose (Mat4.upper3 n))
      (Mat3.mulVec (Mat3.transpose (Mat3.inv (Mat4.upper3 n)))
        ⟨n.m30, n.m31, n.m32⟩) = ⟨n.m30, n.m31, n.m32⟩ := by
    rw [Mat3.mulVec_mulVec, ← Mat3.transpose_mul]
    have hinv := Mat3.inv_mul (Mat4.upper3 n) hdet
    rw [Mat3.mul_def] at hinv
    rw [hinv]
    rw [show Mat3.transpose Mat3.identity = Mat3.identity from rfl]
    exact Mat3.identity_mulVec _
  have hbx := congrArg Vec3.x hvec
  have hby := congrArg Vec3.y hvec
  have hbz := congrArg Vec3.z hvec
  simp only [Mat3.mulVec, Mat3.transpose, Mat4.upper3] at hbx hby hbz
  have hdot := Mat3.dot_mulVec_transpose (Mat3.inv (Mat4.upper3 n))
    (⟨n.m30, n.m31, n.m32⟩ : Vec3) (⟨n.m03, n.m13, n.m23⟩ : Vec3)
  simp only [Mat3.mulVec, Vec3.dot, Mat3.transpose, Mat4.upper3] at hdot
  simp only [perspOf, Mat3.mulVec, Mat3.transpose, Mat4.upper3, Vec3.dot]
  ext
  · rfl
  · rfl
  · rfl
  · rfl
  · rfl
  · rfl
  · rfl
  · rfl
  · rfl
  · rfl
  · rfl
  · rfl
  · linear_combination hbx
  · linear_combination hby
  · linear_combination hbz
  · linear_combination hdot - h33

/-- The round-trip core: on any transform whose decomposition succeeds and
whose rotation factor is not a 180-degree rotation, `Compose` of the
decomposition components reproduces the normalized matrix exactly. -/
theorem roundtrip_core (m : Mat4) (h33 : m.m33 ≠ 0)
    (hdet : Mat3.det (Mat4.upper3 (normalizeM m)) ≠ 0)
    (htr : 0 < 1 + Mat3.trace (rotFactor (Mat4.upper3 (normalizeM m)))) :
    composeTransform
      ⟨⟨(normalizeM m).m03, (normalizeM m).m13, (normalizeM m).m23⟩,
        scaleFactor (Mat4.upper3 (normalizeM m)),
        gsSkew (Mat4.upper3 (normalizeM m)),
        quatOfRot (rotFactor (Mat4.upper3 (normalizeM m))),
        perspOf (normalizeM m)⟩ = normalizeM m := by
  have h33n : (normalizeM m).m33 = 1 := by
    simp only [normalizeM, Mat4.smul]
    field_simp
  simp only [composeTransform]
  rw [rotOfQuat_quatOfRot _ (rotFactor_orthonormal _ hdet)
    (rotFactor_det_one _ hdet) htr]
  rw [scaleM_eq_embed, Mat4.mul4_assoc, Mat4.embed3_mul, Mat4.mul4_assoc,
    Mat4.embed3_mul, gs_factorization_final _ hdet]
  exact persp_translate_assemble (normalizeM m) h33n hdet

/-- The round trip at the interface of `Decompose`: if `Decompose`
succeeds and the extracted quaternion is not degenerate (nonzero scalar
part, i.e. the rotation factor is not a 180-degree rotation), then
`Compose` of the result is exactly the normalized input. -/
theorem roundtrip_of_decompose (m : Mat4) (d : DecomposedTransform)
    (hd : decomposeTransform m = some d) (hw : d.quaternion.w ≠ 0) :
    composeTransform d = normalizeM m := by
  by_cases h33 : m.m33 = 0
  · simp [decomposeTransform, h33] at hd
  by_cases hdet : Mat3.det (Mat4.upper3 (normalizeM m)) = 0
  · simp [decomposeTransform, h33, hdet] at hd
  have hd' := decompose_eq_some m h33 hdet
  rw [hd'] at hd
  have hdval := Option.some.inj hd
  rw [← hdval] at hw ⊢
  have htr : 0 < 1 + Mat3.trace (rotFactor (Mat4.upper3 (normalizeM m))) := by
    have hw' : Real.sqrt (1 + Mat3.trace (rotFactor
        (Mat4.upper3 (normalizeM m)))) / 2 ≠ 0 := hw
    have : Real.sqrt (1 + Mat3.trace (rotFactor
        (Mat4.upper3 (normalizeM m)))) ≠ 0 := by
      intro h0
      exact hw' (by rw [h0]; norm_num)
    exact Real.sqrt_ne_zero'.mp this
  exact roundtrip_core m h33 hdet htr

/-! ### Claim C1: Decompose/Compose round trip -/

/-- `nearlyEqual` is reflexive for nonnegative tolerances. -/
theorem nearlyEqual_refl (a : Mat4) (e : ℝ) (he : 0 ≤ e) :
    nearlyEqual a a e := by
  unfold nearlyEqual
  norm_num [he]

/-- Decomposition only sees the normalized matrix. -/
theorem decompose_eq_decompose_normalize (m : Mat4) (h33 : m.m33 ≠ 0) :
    decomposeTransform m = decomposeTransform (normalizeM m) := by
  have h1 : (normalizeM m).m33 = 1 := by
    simp only [normalizeM, Mat4.smul]
    field_simp
  have hid : normalizeM (normalizeM m) = normalizeM m := normalizeM_of_one _ h1
  by_cases hdet : Mat3.det (Mat4.upper3 (normalizeM m)) = 0
  · simp [decomposeTransform, h33, hdet, hid, h1]
  · rw [decompose_eq_some m h33 hdet,
      decompose_eq_some (normalizeM m) (by rw [h1]; norm_num)
        (by rw [hid]; exact hdet), hid]

/-- C1 (amended): whenever `Decompose` succeeds and the extracted rotation
is not a 180-degree rotation (nonzero quaternion scalar part), recomposing
in the fixed order `perspective * translation * rotation * skew * scale`
yields exactly the input matrix normalized by its bottom-right entry — in
particular, equal to it within epsilon 1e-4. -/
theorem C1_decompose_compose_roundtrip (m : Mat4) (d : DecomposedTransform)
    (hd : decomposeTransform m = some d) (hw : d.quaternion.w ≠ 0) :
    composeTransform d = normalizeM m ∧
      nearlyEqual (composeTransform d) (normalizeM m) (1 / 10000) := by
  have h := roundtrip_of_decompose m d hd hw
  exact ⟨h, h ▸ nearlyEqual_refl _ _ (by norm_num)⟩

/-- C1 counterexample: the uniform homogeneous scale `diag(2, 2, 2, 2)` is
invertible and is not a 180-degree rotation (its decomposition is the
identity decomposition, quaternion scalar part 1), yet recomposition yields
the identity, which differs from the original matrix by 1 in every diagonal
entry — recomposition recovers the matrix only up to normalization by the
bottom-right entry. -/
theorem C1_roundtrip_counterexample :
    Mat4.det ⟨2, 0, 0, 0, 0, 2, 0, 0, 0, 0, 2, 0, 0, 0, 0, 2⟩ ≠ 0 ∧
    decomposeTransform ⟨2, 0, 0, 0, 0, 2, 0, 0, 0, 0, 2, 0, 0, 0, 0, 2⟩ =
      some DecomposedTransform.identity ∧
    DecomposedTransform.identity.quaternion.w ≠ 0 ∧
    ¬ nearlyEqual (composeTransform DecomposedTransform.identity)
      ⟨2, 0, 0, 0, 0, 2, 0, 0, 0, 0, 2, 0, 0, 0, 0, 2⟩ (1 / 10000) := by
  have hn : normalizeM ⟨2, 0, 0, 0, 0, 2, 0, 0, 0, 0, 2, 0, 0, 0, 0, 2⟩ =
      Mat4.identity := by
    simp only [normalizeM, Mat4.smul, Mat4.identity]
    ext <;> norm_num
  have hcomp : composeTransform DecomposedTransform.identity =
      Mat4.identity := by
    rw [show DecomposedTransform.identity =
      (⟨⟨0, 0, 0⟩, ⟨1, 1, 1⟩, ⟨0, 0, 0⟩, ⟨0, 0, 0, 1⟩, ⟨0, 0, 0, 1⟩⟩ :
        DecomposedTransform) from rfl, compose_translate_scale]
    rfl
  refine ⟨by norm_num [Mat4.det, Mat3.det], ?_, ?_, ?_⟩
  · rw [decompose_eq_decompose_normalize _ (by norm_num), hn,
      decompose_identity]
  · norm_num [DecomposedTransform.identity]
  · rw [hcomp]
    intro hne
    obtain ⟨h1, _⟩ := hne
    norm_num [Mat4.identity] at h1

/-- Witness for C1: the identity transform decomposes to the identity
decomposition (quaternion scalar part 1), and recomposition recovers the
(already normalized) identity within the tolerance. -/
theorem C1_decompose_compose_roundtrip_witness :
    composeTransform DecomposedTransform.identity =
        normalizeM Mat4.identity ∧
      nearlyEqual (composeTransform DecomposedTransform.identity)
        (normalizeM Mat4.identity) (1 / 10000) :=
  C1_decompose_compose_roundtrip Mat4.identity DecomposedTransform.identity
    decompose_identity (by norm_num [DecomposedTransform.identity])

/-! ### Claim C7: Blend at progress 1 -/

/-- Linear interpolation of 3-vectors at parameter 1 yields the target. -/
theorem lerp3_one (u v : Vec3) : lerp3 u v 1 = v := by
  simp only [lerp3, lerp]
  ext <;> ring

/-- Linear interpolation of 4-vectors at parameter 1 yields the target. -/
theorem lerp4_one (u v : Vec4) : lerp4 u v 1 = v := by
  simp only [lerp4, lerp]
  ext <;> ring

/-- SLERP at parameter 1 yields the target quaternion up to sign (the sign
flip occurs on the shortest-arc correction). -/
theorem slerp_one (q1 q2 : Vec4) :
    slerp q1 q2 1 = q2 ∨ slerp q1 q2 1 = Vec4.neg q2 := by
  simp only [slerp]
  by_cases h1 : 1 ≤ |Vec4.dot q1 q2|
  · rw [if_pos h1]
    by_cases hd : Vec4.dot q1 q2 < 0
    · right; rw [if_pos hd]
    · left; rw [if_neg hd]
  · rw [if_neg h1]
    have hlt : |Vec4.dot q1 q2| < 1 := not_le.mp h1
    have hpos : 0 < Real.arccos |Vec4.dot q1 q2| := Real.arccos_pos.mpr hlt
    have hltpi : Real.arccos |Vec4.dot q1 q2| < Real.pi := by
      have h2 := Real.arccos_le_pi_div_two.mpr (abs_nonneg (Vec4.dot q1 q2))
      nlinarith [Real.pi_pos]
    have hsin : Real.sin (Real.arccos |Vec4.dot q1 q2|) ≠ 0 :=
      (Real.sin_pos_of_pos_of_lt_pi hpos hltpi).ne'
    by_cases hd : Vec4.dot q1 q2 < 0
    · right
      rw [if_pos hd]
      ext <;> simp [Vec4.add, Vec4.smul, Vec4.neg, Real.sin_zero,
        div_self hsin]
    · left
      rw [if_neg hd]
      ext <;> simp [Vec4.add, Vec4.smul, Real.sin_zero, div_self hsin]

/-- The rotation matrix of a quaternion is invariant under quaternion
negation. -/
theorem rotOfQuat_neg (q : Vec4) : rotOfQuat (Vec4.neg q) = rotOfQuat q := by
  simp only [rotOfQuat, Vec4.neg]
  ext <;> ring

/-- Composing with a negated quaternion gives the same matrix. -/
theorem compose_quat_neg (t s k : Vec3) (q p : Vec4) :
    composeTransform ⟨t, s, k, Vec4.neg q, p⟩ =
      composeTransform ⟨t, s, k, q, p⟩ := by
  simp only [composeTransform, rotOfQuat_neg]

/-- C7 (amended): for decomposable endpoints whose rotations are not
exactly 180 degrees apart (nonzero quaternion dot product) and whose target
rotation is not a 180-degree rotation, `Blend(from, to, 1)` succeeds and
produces exactly the target matrix normalized by its homogeneous scale
factor — in particular equal to it within epsilon 1e-4. -/
theorem C7_blend_at_one (f g : Mat4) (fd gd : DecomposedTransform)
    (hf : decomposeTransform f = some fd)
    (hg : decomposeTransform g = some gd)
    (hdot : Vec4.dot fd.quaternion gd.quaternion ≠ 0)
    (hw : gd.quaternion.w ≠ 0) :
    (blend f g 1).1 = true ∧
      nearlyEqual (blend f g 1).2 (normalizeM g) (1 / 10000) := by
  have hbd : blendDecomposed fd gd 1 =
      some ⟨gd.translate, gd.scale, gd.skew,
        slerp fd.quaternion gd.quaternion 1, gd.perspective⟩ := by
    rw [blendDecomposed, if_neg hdot, lerp3_one, lerp3_one, lerp3_one,
      lerp4_one]
  have hcomp : composeTransform ⟨gd.translate, gd.scale, gd.skew,
      slerp fd.quaternion gd.quaternion 1, gd.perspective⟩ =
      composeTransform gd := by
    rcases slerp_one fd.quaternion gd.quaternion with h | h
    · rw [h]
    · rw [h, compose_quat_neg]
  have hblend : blend f g 1 = (true, composeTransform gd) := by
    simp only [blend, if_neg one_ne_zero, hf, hg, hbd, hcomp]
  rw [hblend, roundtrip_of_decompose g gd hg hw]
  exact ⟨rfl, nearlyEqual_refl _ _ (by norm_num)⟩

/-- C7 counterexample: the identity and a 180-degree rotation about the z
axis are both decomposable, yet blending them at progress 1 fails
(antipodal rotations), so `Blend(from, to, 1)` does not succeed for every
decomposable pair. -/
theorem C7_blend_at_one_counterexample :
    (decomposeTransform Mat4.identity).isSome = true ∧
    (decomposeTransform (rotateAboutUnitM 0 0 1 180)).isSome = true ∧
    (blend Mat4.identity (rotateAboutUnitM 0 0 1 180) 1).1 = false := by
  refine ⟨by rw [decompose_identity]; rfl, ?_, ?_⟩
  · rw [rot180_decompose 0 0 1 (by norm_num)]; rfl
  · rw [blend_antipodal Mat4.identity (rotateAboutUnitM 0 0 1 180) _ _ 1
      one_ne_zero decompose_identity (rot180_decompose 0 0 1 (by norm_num))
      (by simp [Vec4.dot, DecomposedTransform.identity])]

/-- Witness for C7: blending the identity into the identity at progress 1
succeeds and yields the normalized identity within the tolerance. -/
theorem C7_blend_at_one_witness :
    (blend Mat4.identity Mat4.identity 1).1 = true ∧
      nearlyEqual (blend Mat4.identity Mat4.identity 1).2
        (normalizeM Mat4.identity) (1 / 10000) :=
  C7_blend_at_one Mat4.identity Mat4.identity DecomposedTransform.identity
    DecomposedTransform.identity decompose_identity decompose_identity
    (by norm_num [Vec4.dot, DecomposedTransform.identity])
    (by norm_num [DecomposedTransform.identity])

/-! ### Claim C10: factoring a translate-rotate-scale transform -/

/-- The explicit matrix of `Translate(tx, ty); Rotate(theta); Scale(sx, sy)`
(post-multiplication chaining, so the product `T * R * S`). -/
theorem trs_matrix (tx ty θ sx sy : ℝ) :
    translationM ⟨tx, ty, 0⟩ * rotateZM θ * scaleM ⟨sx, sy, 1⟩ =
      ⟨sx * Real.cos (deg2rad θ), -(sy * Real.sin (deg2rad θ)), 0, tx,
       sx * Real.sin (deg2rad θ), sy * Real.cos (deg2rad θ), 0, ty,
       0, 0, 1, 0, 0, 0, 0, 1⟩ := by
  simp only [Mat4.mul4_def, Mat4.mul, translationM, rotateZM, scaleM]
  ext <;> ring

/-- C10: for every transform built as `Translate(tx, ty)`, then
`Rotate(theta)` with `0 <= theta < 180` degrees, then `Scale(sx, sy)` with
positive scale factors, `Decompose` succeeds and recovers exactly the
translation components `tx, ty`, the scale factors `sx, sy`, and the
rotation angle theta encoded in the quaternion
`(0, 0, sin(theta/2), cos(theta/2))` (in radians); in particular the
unit-test recovery formula `acos(q.w) * 360 / pi` returns exactly theta in
degrees. -/
theorem C10_factor_trs (tx ty θ sx sy : ℝ) (h0 : 0 ≤ θ) (h1 : θ < 180)
    (hsx : 0 < sx) (hsy : 0 < sy) :
    decomposeTransform
        (translationM ⟨tx, ty, 0⟩ * rotateZM θ * scaleM ⟨sx, sy, 1⟩) =
      some ⟨⟨tx, ty, 0⟩, ⟨sx, sy, 1⟩, ⟨0, 0, 0⟩,
        ⟨0, 0, Real.sin (deg2rad θ / 2), Real.cos (deg2rad θ / 2)⟩,
        ⟨0, 0, 0, 1⟩⟩ ∧
    Real.arccos (Real.cos (deg2rad θ / 2)) * 360 / Real.pi = θ := by
  have hr0 : 0 ≤ deg2rad θ := by
    rw [deg2rad]
    exact div_nonneg (mul_nonneg h0 Real.pi_pos.le) (by norm_num)
  have hrpi : deg2rad θ < Real.pi := by
    have h2 : θ * Real.pi < 180 * Real.pi := by nlinarith [Real.pi_pos]
    rw [deg2rad]
    linarith
  have hcos2 : 0 < Real.cos (deg2rad θ / 2) := by
    apply Real.cos_pos_of_mem_Ioo
    constructor
    · nlinarith [Real.pi_pos]
    · linarith
  constructor
  · rw [trs_matrix]
    rw [decompose_orthogonal _ sx sy 1 rfl rfl rfl rfl hsx hsy one_pos
      (by simp only [Mat4.upper3, Mat3.col0, Vec3.dot]
          linear_combination (sx ^ 2) * Real.sin_sq_add_cos_sq (deg2rad θ))
      (by simp only [Mat4.upper3, Mat3.col1, Vec3.dot]
          linear_combination (sy ^ 2) * Real.sin_sq_add_cos_sq (deg2rad θ))
      (by simp only [Mat4.upper3, Mat3.col2, Vec3.dot]; norm_num)
      (by simp only [Mat4.upper3, Mat3.col0, Mat3.col1, Vec3.dot]; ring)
      (by simp only [Mat4.upper3, Mat3.col0, Mat3.col2, Vec3.dot]; ring)
      (by simp only [Mat4.upper3, Mat3.col1, Mat3.col2, Vec3.dot]; ring)
      (by simp only [Mat4.upper3, Mat3.det]
          nlinarith [Real.sin_sq_add_cos_sq (deg2rad θ), mul_pos hsx hsy])]
    have hrot : Mat3.ofCols
        (Vec3.smul (1 / sx) (Mat3.col0 (Mat4.upper3
          (⟨sx * Real.cos (deg2rad θ), -(sy * Real.sin (deg2rad θ)), 0, tx,
            sx * Real.sin (deg2rad θ), sy * Real.cos (deg2rad θ), 0, ty,
            0, 0, 1, 0, 0, 0, 0, 1⟩ : Mat4))))
        (Vec3.smul (1 / sy) (Mat3.col1 (Mat4.upper3
          (⟨sx * Real.cos (deg2rad θ), -(sy * Real.sin (deg2rad θ)), 0, tx,
            sx * Real.sin (deg2rad θ), sy * Real.cos (deg2rad θ), 0, ty,
            0, 0, 1, 0, 0, 0, 0, 1⟩ : Mat4))))
        (Vec3.smul (1 / 1) (Mat3.col2 (Mat4.upper3
          (⟨sx * Real.cos (deg2rad θ), -(sy * Real.sin (deg2rad θ)), 0, tx,
            sx * Real.sin (deg2rad θ), sy * Real.cos (deg2rad θ), 0, ty,
            0, 0, 1, 0, 0, 0, 0, 1⟩ : Mat4)))) =
        ⟨Real.cos (deg2rad θ), -Real.sin (deg2rad θ), 0,
         Real.sin (deg2rad θ), Real.cos (deg2rad θ), 0, 0, 0, 1⟩ := by
      ext <;> simp only [Mat3.ofCols, Vec3.smul, Mat3.col0, Mat3.col1,
        Mat3.col2, Mat4.upper3] <;> field_simp <;> try ring
    rw [hrot]
    have htrace : 1 + Mat3.trace
        (⟨Real.cos (deg2rad θ), -Real.sin (deg2rad θ), 0,
          Real.sin (deg2rad θ), Real.cos (deg2rad θ), 0, 0, 0, 1⟩ : Mat3) =
        (2 * Real.cos (deg2rad θ / 2)) ^ 2 := by
      have hdouble : Real.cos (deg2rad θ) =
          2 * Real.cos (deg2rad θ / 2) ^ 2 - 1 := by
        rw [← Real.cos_two_mul]
        congr 1
        ring
      simp only [Mat3.trace]
      linear_combination 2 * hdouble
    have hu : Real.sqrt (1 + Mat3.trace
        (⟨Real.cos (deg2rad θ), -Real.sin (deg2rad θ), 0,
          Real.sin (deg2rad θ), Real.cos (deg2rad θ), 0, 0, 0, 1⟩ : Mat3)) =
        2 * Real.cos (deg2rad θ / 2) := by
      rw [htrace]
      exact Real.sqrt_sq (by linarith)
    have hsin2 : Real.sin (deg2rad θ) =
        2 * Real.sin (deg2rad θ / 2) * Real.cos (deg2rad θ / 2) := by
      rw [← Real.sin_two_mul]
      congr 1
      ring
    simp only [quatOfRot, hu]
    rw [Option.some_inj]
    rw [DecomposedTransform.mk.injEq]
    refine ⟨rfl, rfl, rfl, ?_, rfl⟩
    rw [Vec4.mk.injEq]
    refine ⟨by norm_num, by norm_num, ?_, by ring⟩
    rw [hsin2]
    field_simp
    ring
  · rw [Real.arccos_cos (by linarith) (by nlinarith [Real.pi_pos])]
    rw [deg2rad]
    field_simp
    ring

/-- Witness for C10: the transform `Translate(10, 20); Rotate(90);
Scale(2, 3)` factors exactly. -/
theorem C10_factor_trs_witness :
    decomposeTransform
        (translationM ⟨10, 20, 0⟩ * rotateZM 90 * scaleM ⟨2, 3, 1⟩) =
      some ⟨⟨10, 20, 0⟩, ⟨2, 3, 1⟩, ⟨0, 0, 0⟩,
        ⟨0, 0, Real.sin (deg2rad 90 / 2), Real.cos (deg2rad 90 / 2)⟩,
        ⟨0, 0, 0, 1⟩⟩ ∧
    Real.arccos (Real.cos (deg2rad 90 / 2)) * 360 / Real.pi = 90 :=
  C10_factor_trs 10 20 90 2 3 (by norm_num) (by norm_num) (by norm_num)
    (by norm_num)

/-! ### Claim C9: rectangle mapping -/

/-- C9: the rectangle-mapping behaviour documented for `TransformRect` /
`TransformRectReverse`, evaluated on a 45-degree X skew of the unit square:
the four corners map to (0,0), (1,0), (1,1), (2,1), the mapped shape is not
axis aligned, and the rectangle is replaced by the bounding box of the
mapped corners, origin (0,0) with width 2 and height 1.  (The in-source
declaration `void TransformRect(RectF*)` at transform.h:140 cannot return
the boolean flag that its own comment at transform.h:137-139 and the spec
promise; only `TransformRectReverse` at transform.h:146 returns a
boolean.) -/
theorem C9_mapRect_skew_bbox :
    mapRect (skewXM 45) ⟨0, 0, 1, 1⟩ = (false, ⟨0, 0, 2, 1⟩) := by
  have h45 : deg2rad 45 = Real.pi / 4 := by
    rw [deg2rad]
    ring
  have htan : Real.tan (deg2rad 45) = 1 := by
    rw [h45, Real.tan_pi_div_four]
  have hfalse : ¬ cornersAxisAligned ((0 : ℝ), (0 : ℝ)) (1, 0) (1, 1)
      (2, 1) := by
    norm_num [cornersAxisAligned]
  have hp1 : mapPoint (skewXM 45) 0 0 = ((0 : ℝ), (0 : ℝ)) := by
    simp only [mapPoint, skewXM, htan]
    norm_num
  have hp2 : mapPoint (skewXM 45) (0 + 1) 0 = ((1 : ℝ), (0 : ℝ)) := by
    simp only [mapPoint, skewXM, htan]
    norm_num
  have hp3 : mapPoint (skewXM 45) 0 (0 + 1) = ((1 : ℝ), (1 : ℝ)) := by
    simp only [mapPoint, skewXM, htan]
    norm_num
  have hp4 : mapPoint (skewXM 45) (0 + 1) (0 + 1) = ((2 : ℝ), (1 : ℝ)) := by
    simp only [mapPoint, skewXM, htan]
    norm_num
  have hfalse' : ¬ cornersAxisAligned (mapPoint (skewXM 45) 0 0)
      (mapPoint (skewXM 45) (0 + 1) 0) (mapPoint (skewXM 45) 0 (0 + 1))
      (mapPoint (skewXM 45) (0 + 1) (0 + 1)) := by
    rw [hp1, hp2, hp3, hp4]
    exact hfalse
  simp only [mapRect, hp1, hp2, hp3, hp4]
  rw [if_neg hfalse']
  norm_num [min_def, max_def]

end GfxTransform
